import Mathlib

/-!
Shallow embedding of `src/roaring/roaring.py` (Pilosa roaring bitmap encoder).

Modelling conventions:
* Python ints are `Nat`; machine-width fields are reduced with `% 2^w` at the
  serialization boundary (`u16le`, `u32le`, `u64le`), matching `struct.pack`
  for in-range values.
* Byte streams are `List Nat` (each entry a byte value).
* Python lists are Lean `List`s; in-place mutation becomes state passing.
* `bisect.bisect_left` / `bisect.insort_left` / `bisect.insort` on sorted
  lists are embedded as the equivalent linear scans (`bisectLeft`,
  `insortLeft`, `insortKC`); the library functions are specified only on
  sorted sequences, which is the only way the source uses them.
* The `last_container` reference cache of `SliceContainers` aliases an entry
  of `key_containers`; it is embedded as the index of that entry, and
  container mutation through the alias becomes `modifyAt` on the list.
* Fallible code (an invalid `type` tag raising, a failing sink) is modelled
  with `Option` / `Except`.
-/

set_option maxRecDepth 8000

namespace Roaring

def MAGIC_NUMBER : Nat := 12348

def STORAGE_VERSION : Nat := 0

def COOKIE : Nat := MAGIC_NUMBER + (STORAGE_VERSION <<< 16)

def HEADER_BASE_SIZE : Nat := 8

def ARRAY_MAX_SIZE : Nat := 4096

def BITMAP_N : Nat := (1 <<< 16) / 64

def RUN_MAX_SIZE : Nat := 2048

/-- Little-endian bytes of a `u16` field (`struct.pack "<H"`). -/
def u16le (v : Nat) : List Nat := [v % 256, v / 2 ^ 8 % 256]

/-- Little-endian bytes of a `u32` field (`struct.pack "<I"`). -/
def u32le (v : Nat) : List Nat :=
  [v % 256, v / 2 ^ 8 % 256, v / 2 ^ 16 % 256, v / 2 ^ 24 % 256]

/-- Little-endian bytes of a `u64` field (`struct.pack "<Q"`). -/
def u64le (v : Nat) : List Nat :=
  [v % 256, v / 2 ^ 8 % 256, v / 2 ^ 16 % 256, v / 2 ^ 24 % 256,
   v / 2 ^ 32 % 256, v / 2 ^ 40 % 256, v / 2 ^ 48 % 256, v / 2 ^ 56 % 256]

/-- The `Container` object: `__slots__ = "array", "bitmap", "runs", "type", "n"`. -/
structure Container where
  array : List Nat
  bitmap : List Nat
  runs : List (Nat × Nat)
  type : Nat
  n : Nat
deriving DecidableEq

namespace Container

def TYPE_ARRAY : Nat := 1

def TYPE_BITMAP : Nat := 2

def TYPE_RLE : Nat := 3

/-- `Container.__init__`. -/
def init : Container := ⟨[], [], [], TYPE_ARRAY, 0⟩

end Container

/-- `bisect.bisect_left(a, x)` on a sorted list: number of elements `< x`. -/
def bisectLeft (a : List Nat) (x : Nat) : Nat := a.countP (fun v => decide (v < x))

/-- `bisect.insort_left(a, x)` on a sorted list. -/
def insortLeft (x : Nat) : List Nat → List Nat
  | [] => [x]
  | a :: t => if x ≤ a then x :: a :: t else a :: insortLeft x t

namespace Container

/-- `Container._bitmap_add`. -/
def bitmapAdd (c : Container) (bit : Nat) : Container :=
  let w := c.bitmap.getD (bit / 64) 0
  if w &&& (1 <<< (bit % 64)) ≠ 0 then c
  else { c with n := c.n + 1, bitmap := c.bitmap.set (bit / 64) (w ||| (1 <<< (bit % 64))) }

/-- `Container._convert_to_bitmap`. -/
def convertToBitmap (c : Container) : Container :=
  if c.type = TYPE_BITMAP then c
  else
    { c with
      type := TYPE_BITMAP
      bitmap := c.array.foldl
        (fun bm bit => bm.set (bit / 64) (bm.getD (bit / 64) 0 ||| (1 <<< (bit % 64))))
        (List.replicate BITMAP_N 0)
      array := [] }

/-- `Container.add`. -/
def add (c : Container) (bit : Nat) : Container :=
  if c.type = TYPE_BITMAP then c.bitmapAdd bit
  else
    let index := bisectLeft c.array bit
    if index ≠ c.n ∧ c.array.getD index (bit + 1) = bit then c
    else if c.n ≥ ARRAY_MAX_SIZE - 1 then (c.convertToBitmap).bitmapAdd bit
    else { c with n := c.n + 1, array := insortLeft bit c.array }

end Container

/-- Bits yielded for one nonzero bitmap word in `Container.__iter__`:
`for i in range(64): v = 2**i; if value & v == v: yield key * 64 + i`. -/
def bitmapWordBits (key value : Nat) : List Nat :=
  (List.range 64).filterMap
    (fun i => if value &&& (1 <<< i) = 1 <<< i then some (key * 64 + i) else none)

namespace Container

/-- `Container.__iter__`, collected into a list (the generator is finite).
An invalid type raises in the source; iteration is only used on containers
whose tag is valid, where this total version agrees. -/
def iterate (c : Container) : List Nat :=
  if c.type = TYPE_ARRAY then c.array
  else if c.type = TYPE_BITMAP then
    c.bitmap.enum.flatMap (fun kv => if kv.2 = 0 then [] else bitmapWordBits kv.1 kv.2)
  else if c.type = TYPE_RLE then
    c.runs.flatMap (fun sl => List.range' sl.1 (sl.2 + 1 - sl.1))
  else []

end Container

/-- Tail of `to_runs` after the first element seeded `start = last`. -/
def toRunsAux (start last : Nat) : List Nat → List (Nat × Nat)
  | [] => [(start, last)]
  | bit :: rest =>
    if bit = last + 1 then toRunsAux start bit rest
    else (start, last) :: toRunsAux bit bit rest

/-- `to_runs`. -/
def to_runs : List Nat → List (Nat × Nat)
  | [] => []
  | bit :: rest => toRunsAux bit bit rest

namespace Container

/-- `Container._convert_to_runs`. -/
def convertToRuns (c : Container) : Container :=
  if c.type = TYPE_RLE then c
  else
    let runs := to_runs c.iterate
    if runs.length > RUN_MAX_SIZE then c
    else { c with runs := runs, type := TYPE_RLE, array := [], bitmap := [] }

/-- `Container._serialization_cost` via `SERIALIZATION_COST_MAP`;
`none` models the `KeyError` → `Exception` path for an invalid tag. -/
def serializationCost (c : Container) : Option Nat :=
  if c.type = TYPE_ARRAY then some (8 * c.array.length)
  else if c.type = TYPE_BITMAP then some (8 * (c.bitmap.filter (fun x => x != 0)).length)
  else if c.type = TYPE_RLE then some (16 * c.runs.length + 2)
  else none

/-- `Container._optimized` (`_copy` is value copy here; `_convert_to_runs`
rebinds fields of the copy only). -/
def optimized (c : Container) : Option Container :=
  let cc := c.convertToRuns
  match cc.serializationCost, c.serializationCost with
  | some a, some b => some (if a < b then cc else c)
  | _, _ => none

end Container

/-- Errors of `Container.write_to`: the intrinsic invalid-tag `Exception`,
or an error raised by the sink and propagated. -/
inductive WriteErr (ε : Type v) where
  | invalidType
  | sinkErr (e : ε)
deriving DecidableEq

/-- One iteration of the run-writing loop in `Container.write_to`:
`written += writer.write(struct.pack("<HH", start, last))`, with a failed
write propagating. -/
def rleWriteStep {σ : Type u} {ε : Type v} (write : σ → List Nat → Except ε (σ × Nat))
    (acc : Except (WriteErr ε) (σ × Nat)) (sl : Nat × Nat) : Except (WriteErr ε) (σ × Nat) :=
  match acc with
  | .error e => .error e
  | .ok (st, k) =>
    match write st (u16le sl.1 ++ u16le sl.2) with
    | .ok (st2, k2) => .ok (st2, k + k2)
    | .error e => .error (.sinkErr e)

/-- `Container.write_to(writer)` against an abstract stateful sink `write`
(state `σ`, failure `ε`); returns the bytes-written count like the source. -/
def Container.writeToE {σ : Type u} {ε : Type v} (c : Container)
    (write : σ → List Nat → Except ε (σ × Nat)) (s : σ) : Except (WriteErr ε) (σ × Nat) :=
  if c.type = Container.TYPE_ARRAY then
    match write s (c.array.flatMap u16le) with
    | .ok r => .ok r
    | .error e => .error (.sinkErr e)
  else if c.type = Container.TYPE_BITMAP then
    match write s (c.bitmap.flatMap u64le) with
    | .ok r => .ok r
    | .error e => .error (.sinkErr e)
  else if c.type = Container.TYPE_RLE then
    match write s (u16le c.runs.length) with
    | .error e => .error (.sinkErr e)
    | .ok sw => c.runs.foldl (rleWriteStep write) (.ok sw)
  else .error .invalidType

/-- An `io.BytesIO` sink: the state is the buffer, writes append and
return the byte count; it never fails. -/
def bytesIOWrite (s bs : List Nat) : Except Empty (List Nat × Nat) := .ok (s ++ bs, bs.length)

/-- `Container.write_to` into a fresh `io.BytesIO`: the payload bytes and the
returned count. -/
def Container.writeBytes (c : Container) : Option (List Nat × Nat) :=
  match c.writeToE bytesIOWrite [] with
  | .ok r => some r
  | .error _ => none

/-- The `SliceContainers` object.  `lastContainer` embeds the
`last_container` object reference as an index into `keyContainers`. -/
structure SliceContainers where
  keyContainers : List (Nat × Container)
  lastKey : Nat
  lastContainer : Option Nat
deriving DecidableEq

namespace SliceContainers

/-- `SliceContainers.__init__`. -/
def init : SliceContainers := ⟨[], 0, none⟩

end SliceContainers

/-- `SliceContainers.get_container`: `bisect_left` for the first entry with
key `≥ key` (the `_empty_container` sentinel compares `False` both ways, so
tuple order is key order), then the exact-match check.  Returns the entry's
index together with its container. -/
def lookupIdx (key : Nat) : List (Nat × Container) → Option (Nat × Container)
  | [] => none
  | (k, c) :: t =>
    if key ≤ k then (if k = key then some (0, c) else none)
    else (lookupIdx key t).map (fun p => (p.1 + 1, p.2))

/-- `SliceContainers.put_container`: `bisect.insort` (insert after equal
keys; `Container.__lt__` is constantly `False`). -/
def insortKC (key : Nat) (c : Container) : List (Nat × Container) → List (Nat × Container)
  | [] => [(key, c)]
  | (k, c2) :: t => if key < k then (key, c) :: (k, c2) :: t else (k, c2) :: insortKC key c t

/-- Index at which `insortKC` places the new entry. -/
def insortIdx (key : Nat) : List (Nat × Container) → Nat
  | [] => 0
  | (k, _) :: t => if key < k then 0 else insortIdx key t + 1

namespace SliceContainers

/-- `SliceContainers.get_or_create`.  The Python `if not container:` test is
falsy both for `None` and for a container with `n = 0` (`__len__`).
Returns the state plus the index of the returned container reference. -/
def getOrCreate (sc : SliceContainers) (key : Nat) : SliceContainers × Nat :=
  if key = sc.lastKey ∧ sc.lastContainer.isSome then (sc, sc.lastContainer.getD 0)
  else
    match lookupIdx key sc.keyContainers with
    | some (i, c) =>
      if c.n ≠ 0 then ({ sc with lastKey := key, lastContainer := some i }, i)
      else
        let i2 := insortIdx key sc.keyContainers
        ({ keyContainers := insortKC key Container.init sc.keyContainers,
           lastKey := key, lastContainer := some i2 }, i2)
    | none =>
      let i2 := insortIdx key sc.keyContainers
      ({ keyContainers := insortKC key Container.init sc.keyContainers,
         lastKey := key, lastContainer := some i2 }, i2)

end SliceContainers

/-- In-place mutation of the container object at position `i` of
`key_containers`, seen functionally. -/
def modifyAt (f : Container → Container) : Nat → List (Nat × Container) → List (Nat × Container)
  | _, [] => []
  | 0, (k, c) :: t => (k, f c) :: t
  | i + 1, kc :: t => kc :: modifyAt f i t

namespace SliceContainers

/-- `SliceContainers.__iter__`, collected into a list. -/
def iterate (sc : SliceContainers) : List Nat :=
  sc.keyContainers.flatMap (fun kc => (kc.2.iterate).map (fun bit => (kc.1 <<< 16) + bit))

end SliceContainers

/-- The meta-record loop of `SliceContainers.write_to`: skips containers with
`len < 1`, optionally optimizes, emits `key u64`,`type u16`,`n-1 u16` per
container, and collects the (possibly optimized) containers. -/
def metaPass : List (Nat × Container) → Bool → Option (List Nat × List Container)
  | [], _ => some ([], [])
  | (key, c) :: t, optimize =>
    if c.n < 1 then metaPass t optimize
    else
      match (if optimize then c.optimized else some c) with
      | none => none
      | some c2 =>
        match metaPass t optimize with
        | none => none
        | some (bs, cs) =>
          some (u64le key ++ u16le c2.type ++ u16le (c.n - 1) ++ bs, c2 :: cs)

/-- The offset/data loop of `SliceContainers.write_to`: emits each absolute
`u32` offset to the writer and each payload to the deferred `data` buffer,
advancing the cursor by `container.write_to`'s return value.  Yields
(offset bytes, data-buffer bytes, final cursor). -/
def dataPass : List Container → Nat → Option (List Nat × List Nat × Nat)
  | [], offset => some ([], [], offset)
  | c :: t, offset =>
    match c.writeBytes with
    | none => none
    | some (payload, size) =>
      match dataPass t (offset + size) with
      | none => none
      | some (obs, dbs, fin) => some (u32le offset ++ obs, payload ++ dbs, fin)

namespace SliceContainers

/-- `SliceContainers.write_to`: header, meta records, offset records, then
the deferred data buffer; returns (emitted bytes, return value). -/
def writeTo (sc : SliceContainers) (optimize : Bool) : Option (List Nat × Nat) :=
  let cnt := (sc.keyContainers.filter (fun kc => kc.2.n > 0)).length
  match metaPass sc.keyContainers optimize with
  | none => none
  | some (mb, cs) =>
    match dataPass cs (HEADER_BASE_SIZE + cnt * (8 + 2 + 2 + 4)) with
    | none => none
    | some (obs, dbs, fin) => some (u32le COOKIE ++ u32le cnt ++ mb ++ obs ++ dbs, fin)

end SliceContainers

/-- The `Bitmap` object. -/
structure Bitmap where
  containers : SliceContainers
deriving DecidableEq

namespace Bitmap

/-- `Bitmap.__init__`. -/
def init : Bitmap := ⟨SliceContainers.init⟩

/-- `Bitmap.add`: the container returned by `get_or_create` is mutated in
place; here the mutation is written back through the alias index. -/
def add (b : Bitmap) (bit : Nat) : Bitmap :=
  let r := b.containers.getOrCreate (bit >>> 16)
  ⟨{ r.1 with keyContainers := modifyAt (fun c => c.add (bit &&& 0xFFFF)) r.2 r.1.keyContainers }⟩

/-- `Bitmap.__iter__`, collected into a list. -/
def iterate (b : Bitmap) : List Nat := b.containers.iterate

/-- `Bitmap.write_to`. -/
def writeTo (b : Bitmap) (optimize : Bool) : Option (List Nat × Nat) :=
  b.containers.writeTo optimize

end Bitmap

/-- Building a `Bitmap` by a sequence of `add` calls. -/
def buildB (xs : List Nat) : Bitmap := xs.foldl Bitmap.add Bitmap.init

/-- Building a `Container` by a sequence of `add` calls. -/
def buildC (xs : List Nat) : Container := xs.foldl Container.add Container.init

/-! Canonical forms.  The state reached by any `add` sequence is a function
of the set of inserted values alone; the definitions below give that
canonical state explicitly, and the theorems prove the correspondence. -/

/-- Insert into a sorted duplicate-free list, keeping it sorted and
duplicate-free. -/
def insertSorted (x : Nat) : List Nat → List Nat
  | [] => [x]
  | a :: t => if x < a then x :: a :: t else if x = a then a :: t else a :: insertSorted x t

/-- Sorted duplicate-free list of the elements of `xs`. -/
def sortIns (xs : List Nat) : List Nat := xs.foldl (fun acc x => insertSorted x acc) []

/-- The number with binary digits `f 0, f 1, …, f (k-1)` (little-endian). -/
def bitsVal (f : Nat → Bool) : Nat → Nat
  | 0 => 0
  | k + 1 => bitsVal f k + (if f k then 2 ^ k else 0)

/-- Word `w` of the canonical bitmap of the value list `L`: bit `j` is set
iff `64*w + j ∈ L`. -/
def wordOf (L : List Nat) (w : Nat) : Nat := bitsVal (fun j => decide (64 * w + j ∈ L)) 64

/-- The canonical 1024-word bitmap of the value list `L`. -/
def wordsOf (L : List Nat) : List Nat := (List.range BITMAP_N).map (wordOf L)

/-- One step of the `_convert_to_bitmap` fold. -/
def setWordBit (bm : List Nat) (bit : Nat) : List Nat :=
  bm.set (bit / 64) (bm.getD (bit / 64) 0 ||| (1 <<< (bit % 64)))

/-- The canonical container holding exactly the (sorted, duplicate-free)
low-value list `L`: an array container while at most `ARRAY_MAX_SIZE - 1`
values, a bitmap container beyond. -/
def canonC (L : List Nat) : Container :=
  if L.length ≤ ARRAY_MAX_SIZE - 1 then ⟨L, [], [], Container.TYPE_ARRAY, L.length⟩
  else ⟨[], wordsOf L, [], Container.TYPE_BITMAP, L.length⟩

/-- The RLE container `_convert_to_runs` produces from the value list `L`
of a canonical container. -/
def rleC (L : List Nat) : Container := ⟨[], [], to_runs L, Container.TYPE_RLE, L.length⟩

/-- `SERIALIZATION_COST_MAP` evaluated on the canonical container of `L`. -/
def costCanon (L : List Nat) : Nat :=
  if L.length ≤ ARRAY_MAX_SIZE - 1 then 8 * L.length
  else 8 * ((wordsOf L).filter (fun x => x != 0)).length

def keyOf (v : Nat) : Nat := v >>> 16

def lowOf (v : Nat) : Nat := v &&& 0xFFFF

/-- The association list `ks.map (fun k => (k, g k))`. -/
def storeOf (ks : List Nat) (g : Nat → Container) : List (Nat × Container) :=
  ks.map (fun k => (k, g k))

/-- Sorted duplicate-free low values of `xs` falling under container key `k`. -/
def lowsOf (xs : List Nat) (k : Nat) : List Nat :=
  sortIns ((xs.filter (fun v => keyOf v == k)).map lowOf)

/-- The canonical `key_containers` list after inserting the values `xs`. -/
def canonStore (xs : List Nat) : List (Nat × Container) :=
  storeOf (sortIns (xs.map keyOf)) (fun k => canonC (lowsOf xs k))

namespace SliceContainers

/-- The cache invariant: when `last_container` is set it aliases the entry
of `key_containers` whose key is `last_key`. -/
def cacheOK (sc : SliceContainers) : Prop :=
  ∀ i, sc.lastContainer = some i → ∃ c, sc.keyContainers[i]? = some (sc.lastKey, c)

end SliceContainers

namespace Container

/-- A valid encoding tag. -/
def validType (c : Container) : Prop :=
  c.type = TYPE_ARRAY ∨ c.type = TYPE_BITMAP ∨ c.type = TYPE_RLE

/-- `_optimized` as a total function on valid containers. -/
def optimizedD (c : Container) : Container := (c.optimized).getD c

/-- The payload bytes `write_to` emits for a valid container. -/
def payload (c : Container) : List Nat :=
  if c.type = TYPE_ARRAY then c.array.flatMap u16le
  else if c.type = TYPE_BITMAP then c.bitmap.flatMap u64le
  else u16le c.runs.length ++ c.runs.flatMap (fun sl => u16le sl.1 ++ u16le sl.2)

/-- Payload byte size of a valid container. -/
def emitSize (c : Container) : Nat := c.payload.length

end Container

/-- The absolute offsets the offset records hold: for each container, the
header-plus-meta base plus the payload sizes of the preceding containers. -/
def offsetsList (cs : List Container) (base : Nat) : List Nat :=
  (List.range cs.length).map (fun i => base + (((cs.take i).map Container.emitSize).sum))

/-- The meta loop of `write_to`, additionally returning `key_containers` as
the loop leaves it (the loop reads entries and never writes back; the
optimized copies go only into its private `containers` list). -/
def metaPassTracked : List (Nat × Container) → Bool → Option (List Nat × List Container × List (Nat × Container))
  | [], _ => some ([], [], [])
  | (key, c) :: t, optimize =>
    if c.n < 1 then
      match metaPassTracked t optimize with
      | none => none
      | some (bs, cs, post) => some (bs, cs, (key, c) :: post)
    else
      match (if optimize then c.optimized else some c) with
      | none => none
      | some c2 =>
        match metaPassTracked t optimize with
        | none => none
        | some (bs, cs, post) =>
          some (u64le key ++ u16le c2.type ++ u16le (c.n - 1) ++ bs, c2 :: cs, (key, c) :: post)

namespace SliceContainers

/-- `write_to` together with the post-call state of the `SliceContainers`
object (`last_key` / `last_container` are not touched by the source). -/
def writeToTracked (sc : SliceContainers) (optimize : Bool) :
    Option ((List Nat × Nat) × SliceContainers) :=
  let cnt := (sc.keyContainers.filter (fun kc => kc.2.n > 0)).length
  match metaPassTracked sc.keyContainers optimize with
  | none => none
  | some (mb, cs, post) =>
    match dataPass cs (HEADER_BASE_SIZE + cnt * (8 + 2 + 2 + 4)) with
    | none => none
    | some (obs, dbs, fin) =>
      some ((u32le COOKIE ++ u32le cnt ++ mb ++ obs ++ dbs, fin), { sc with keyContainers := post })

end SliceContainers

/-- Modelled from the spec sentence of C1 (not from the source), for
comparison with the source's choice: the encoding whose payload cost is
smallest among `arr_cost = 2n`, `bmp_cost = 8192`, `rle_cost = 2 + 4r`
(RLE legal only when `r ≤ 2048`), ties broken `ARRAY < BITMAP < RLE`;
when `r > 2048`, Array iff `arr_cost < bmp_cost`, else Bitmap. -/
def specChosenType (n r : Nat) : Nat :=
  if r ≤ RUN_MAX_SIZE then
    if 2 * n ≤ 8192 ∧ 2 * n ≤ 2 + 4 * r then Container.TYPE_ARRAY
    else if 8192 ≤ 2 + 4 * r then Container.TYPE_BITMAP
    else Container.TYPE_RLE
  else if 2 * n < 8192 then Container.TYPE_ARRAY else Container.TYPE_BITMAP

/-- The input set of the spec's reference sample (`get_sample_bitmap`):
`{0..4095} ∪ {2^32, 2^32+2, …, 2^32+8192} ∪ {2^64 - 1}`, in listed order. -/
def sampleList : List Nat :=
  List.range 4096 ++ (List.range 4097).map (fun k => 2 ^ 32 + 2 * k) ++ [2 ^ 64 - 1]

/-- 4096 values in 1024 runs of four consecutive values, one run per
bitmap word. -/
def spreadL : List Nat :=
  (List.range 1024).flatMap (fun i => List.range' (64 * i) 4)

/-- Little-endian decoding of a 2-byte field (`struct.unpack "<H"`). -/
def u16dec (bs : List Nat) : Nat := bs.getD 0 0 + 256 * bs.getD 1 0

/-- Little-endian decoding of a 4-byte field (`struct.unpack "<I"`). -/
def u32dec (bs : List Nat) : Nat :=
  bs.getD 0 0 + 256 * bs.getD 1 0 + 65536 * bs.getD 2 0 + 16777216 * bs.getD 3 0

/-- The canonical store reached by inserting the reference sample, with each
container written as an explicit record (established in `canonStore_sample`). -/
def sampleStore : List (Nat × Container) :=
  [(0, ⟨[], wordsOf (List.range 4096), [], Container.TYPE_BITMAP, 4096⟩),
   (65536, ⟨[], wordsOf ((List.range 4097).map (fun k => 2 * k)), [],
     Container.TYPE_BITMAP, 4097⟩),
   (2 ^ 48 - 1, ⟨[65535], [], [], Container.TYPE_ARRAY, 1⟩)]

/-! ### Sorted-list lemmas -/

theorem mem_insertSorted {x a : Nat} {l : List Nat} :
    a ∈ insertSorted x l ↔ a = x ∨ a ∈ l := by
  induction l with
  | nil => simp [insertSorted]
  | cons b t ih =>
    by_cases h1 : x < b
    · simp [insertSorted, h1]
    · by_cases h2 : x = b
      · subst h2; simp [insertSorted, h1]
      · simp [insertSorted, h1, h2, ih]; tauto

theorem insertSorted_pairwise {x : Nat} {l : List Nat}
    (hs : l.Pairwise (· < ·)) : (insertSorted x l).Pairwise (· < ·) := by
  induction l with
  | nil => simp [insertSorted]
  | cons b t ih =>
    rw [List.pairwise_cons] at hs
    by_cases h1 : x < b
    · rw [insertSorted, if_pos h1, List.pairwise_cons]
      refine ⟨?_, List.pairwise_cons.2 hs⟩
      intro a ha
      rcases List.mem_cons.1 ha with h | h
      · omega
      · exact lt_trans h1 (hs.1 a h)
    · by_cases h2 : x = b
      · subst h2
        rw [insertSorted, if_neg h1, if_pos rfl, List.pairwise_cons]
        exact hs
      · rw [insertSorted, if_neg h1, if_neg h2, List.pairwise_cons]
        refine ⟨?_, ih hs.2⟩
        intro a ha
        rcases mem_insertSorted.1 ha with h | h
        · omega
        · exact hs.1 a h

theorem insertSorted_of_mem {x : Nat} {l : List Nat}
    (hs : l.Pairwise (· < ·)) (hm : x ∈ l) : insertSorted x l = l := by
  induction l with
  | nil => cases hm
  | cons b t ih =>
    rw [List.pairwise_cons] at hs
    rcases List.mem_cons.1 hm with h | h
    · subst h; simp [insertSorted]
    · have hbx : b < x := hs.1 x h
      rw [insertSorted, if_neg (by omega), if_neg (by omega), ih hs.2 h]

theorem length_insertSorted_of_not_mem {x : Nat} {l : List Nat}
    (hm : x ∉ l) : (insertSorted x l).length = l.length + 1 := by
  induction l with
  | nil => rfl
  | cons b t ih =>
    rw [List.mem_cons, not_or] at hm
    by_cases h1 : x < b
    · simp [insertSorted, h1]
    · rw [insertSorted, if_neg h1, if_neg hm.1]
      simp [ih hm.2]

theorem insortLeft_eq_insertSorted {x : Nat} {l : List Nat}
    (hm : x ∉ l) : insortLeft x l = insertSorted x l := by
  induction l with
  | nil => rfl
  | cons b t ih =>
    rw [List.mem_cons, not_or] at hm
    by_cases h1 : x < b
    · rw [insortLeft, if_pos (le_of_lt h1), insertSorted, if_pos h1]
    · rw [insortLeft, if_neg (by omega), insertSorted, if_neg h1, if_neg hm.1,
        ih hm.2]

/-- Two strictly sorted lists with the same members are equal. -/
theorem sorted_mem_ext : ∀ {l1 l2 : List Nat}, l1.Pairwise (· < ·) →
    l2.Pairwise (· < ·) → (∀ a, a ∈ l1 ↔ a ∈ l2) → l1 = l2
  | [], [], _, _, _ => rfl
  | [], b :: t2, _, _, h => absurd ((h b).2 (List.mem_cons_self _ _)) (List.not_mem_nil _)
  | a :: t1, [], _, _, h => absurd ((h a).1 (List.mem_cons_self _ _)) (List.not_mem_nil _)
  | a :: t1, b :: t2, h1, h2, h => by
    rw [List.pairwise_cons] at h1 h2
    have hab : a = b := by
      rcases List.mem_cons.1 ((h a).1 (List.mem_cons_self _ _)) with hh | hh
      · exact hh
      rcases List.mem_cons.1 ((h b).2 (List.mem_cons_self _ _)) with hh2 | hh2
      · omega
      · have := h1.1 b hh2
        have := h2.1 a hh
        omega
    subst hab
    have ht : t1 = t2 := by
      refine sorted_mem_ext h1.2 h2.2 (fun c => ⟨fun hc => ?_, fun hc => ?_⟩)
      · have hca : a < c := h1.1 c hc
        rcases List.mem_cons.1 ((h c).1 (List.mem_cons_of_mem a hc)) with hh | hh
        · omega
        · exact hh
      · have hca : a < c := h2.1 c hc
        rcases List.mem_cons.1 ((h c).2 (List.mem_cons_of_mem a hc)) with hh | hh
        · omega
        · exact hh
    rw [ht]

theorem sortIns_append (xs : List Nat) (v : Nat) :
    sortIns (xs ++ [v]) = insertSorted v (sortIns xs) := by
  simp [sortIns, List.foldl_append]

theorem sortIns_aux_pairwise (xs : List Nat) :
    ∀ acc : List Nat, acc.Pairwise (· < ·) →
      (xs.foldl (fun acc x => insertSorted x acc) acc).Pairwise (· < ·) := by
  induction xs with
  | nil => intro acc h; exact h
  | cons x t ih => intro acc h; exact ih _ (insertSorted_pairwise h)

theorem sortIns_pairwise (xs : List Nat) : (sortIns xs).Pairwise (· < ·) :=
  sortIns_aux_pairwise xs [] List.Pairwise.nil

theorem sortIns_aux_mem (xs : List Nat) :
    ∀ (acc : List Nat) (a : Nat),
      a ∈ xs.foldl (fun acc x => insertSorted x acc) acc ↔ a ∈ acc ∨ a ∈ xs := by
  induction xs with
  | nil => simp
  | cons x t ih =>
    intro acc a
    rw [List.foldl_cons, ih, mem_insertSorted]
    simp
    tauto

theorem mem_sortIns {xs : List Nat} {a : Nat} : a ∈ sortIns xs ↔ a ∈ xs := by
  rw [sortIns, sortIns_aux_mem]
  simp

theorem sortIns_eq_self {xs : List Nat} (hs : xs.Pairwise (· < ·)) :
    sortIns xs = xs :=
  sorted_mem_ext (sortIns_pairwise xs) hs (fun _ => mem_sortIns)

theorem sortIns_congr {xs ys : List Nat} (h : ∀ a, a ∈ xs ↔ a ∈ ys) :
    sortIns xs = sortIns ys :=
  sorted_mem_ext (sortIns_pairwise xs) (sortIns_pairwise ys)
    (fun a => by rw [mem_sortIns, mem_sortIns]; exact h a)

/-- The membership test of `Container.add` (`bisect_left` position not at the
end and landing on the value) is exactly membership, on a sorted array. -/
theorem bisect_guard {l : List Nat} (hs : l.Pairwise (· < ·)) (x : Nat) :
    (bisectLeft l x ≠ l.length ∧ l.getD (bisectLeft l x) (x + 1) = x) ↔ x ∈ l := by
  induction l with
  | nil => simp [bisectLeft]
  | cons b t ih =>
    rw [List.pairwise_cons] at hs
    by_cases h1 : b < x
    · have hx : x ≠ b := by omega
      rw [bisectLeft, List.countP_cons_of_pos _ _ (by simpa using h1)]
      rw [bisectLeft] at ih
      simp only [List.length_cons, List.getD_cons_succ, List.mem_cons]
      have hne : List.countP (fun v => decide (v < x)) t + 1 ≠ t.length + 1 ↔
          List.countP (fun v => decide (v < x)) t ≠ t.length := by omega
      rw [hne, ih hs.2]
      tauto
    · have hcount : List.countP (fun v => decide (v < x)) (b :: t) = 0 := by
        rw [List.countP_eq_zero]
        intro a ha
        rcases List.mem_cons.1 ha with h | h
        · simp; omega
        · have := hs.1 a h; simp; omega
      rw [bisectLeft, hcount]
      simp only [List.length_cons, List.getD_cons_zero, List.mem_cons]
      constructor
      · rintro ⟨-, h⟩; exact Or.inl h.symm
      · rintro (h | h)
        · exact ⟨by positivity, h.symm⟩
        · have := hs.1 x h; omega

/-! ### Bit-vector lemmas for the canonical bitmap words -/

theorem bitsVal_lt (f : Nat → Bool) (k : Nat) : bitsVal f k < 2 ^ k := by
  induction k with
  | zero => simp [bitsVal]
  | succ k ih =>
    rw [bitsVal, pow_succ]
    by_cases h : f k <;> simp [h] <;> omega

theorem testBit_bitsVal (f : Nat → Bool) (k j : Nat) :
    (bitsVal f k).testBit j = (decide (j < k) && f j) := by
  induction k with
  | zero => simp [bitsVal, Nat.zero_testBit]
  | succ k ih =>
    by_cases hf : f k
    · rw [bitsVal, if_pos hf, Nat.add_comm]
      rcases Nat.lt_trichotomy j k with hj | hj | hj
      · rw [Nat.testBit_two_pow_add_gt hj, ih]
        simp [hj, Nat.lt_succ_of_lt hj]
      · subst hj
        rw [Nat.testBit_two_pow_add_eq,
          Nat.testBit_lt_two_pow (bitsVal_lt f j)]
        simp [hf, Nat.lt_succ_self]
      · have hb : 2 ^ k + bitsVal f k < 2 ^ j := by
          calc 2 ^ k + bitsVal f k < 2 ^ k + 2 ^ k := by
                have := bitsVal_lt f k; omega
            _ = 2 ^ (k + 1) := by ring
            _ ≤ 2 ^ j := Nat.pow_le_pow_right (by norm_num) hj
        rw [Nat.testBit_lt_two_pow hb]
        have hh : ¬ (j < k + 1) := by omega
        simp [hh]
    · rw [bitsVal, if_neg hf, Nat.add_zero, ih]
      rcases Nat.lt_trichotomy j k with hj | hj | hj
      · simp [hj, Nat.lt_succ_of_lt hj]
      · subst hj; simp [hf]
      · simp [Nat.lt_asymm hj]
        omega

theorem wordOf_lt_two_pow (L : List Nat) (w : Nat) : wordOf L w < 2 ^ 64 :=
  bitsVal_lt _ 64

theorem testBit_wordOf (L : List Nat) (w j : Nat) :
    (wordOf L w).testBit j = (decide (j < 64) && decide (64 * w + j ∈ L)) :=
  testBit_bitsVal _ 64 j

theorem wordOf_congr {L L' : List Nat} (h : ∀ a, a ∈ L ↔ a ∈ L') (w : Nat) :
    wordOf L w = wordOf L' w := by
  unfold wordOf
  have : (fun j => decide (64 * w + j ∈ L)) = (fun j => decide (64 * w + j ∈ L')) :=
    funext fun j => by simp [h]
  rw [this]

theorem wordOf_eq_zero_iff {L : List Nat} {w : Nat} :
    wordOf L w = 0 ↔ ∀ j < 64, (64 * w + j) ∉ L := by
  constructor
  · intro h j hj hmem
    have := testBit_wordOf L w j
    rw [h, Nat.zero_testBit] at this
    simp [hj, hmem] at this
  · intro h
    refine Nat.eq_of_testBit_eq (fun j => ?_)
    rw [testBit_wordOf, Nat.zero_testBit]
    by_cases hj : j < 64
    · simp [hj, h j hj]
    · simp [hj]

theorem wordOf_and_test {L : List Nat} {w j : Nat} (hj : j < 64) :
    (wordOf L w &&& (1 <<< j) ≠ 0) ↔ (64 * w + j) ∈ L := by
  rw [Nat.one_shiftLeft, Nat.and_two_pow, testBit_wordOf]
  by_cases hmem : (64 * w + j) ∈ L
  · simp [hj, hmem]
  · simp [hj, hmem]

theorem wordOf_set {L : List Nat} (x : Nat) :
    wordOf L (x / 64) ||| (1 <<< (x % 64)) = wordOf (x :: L) (x / 64) := by
  refine Nat.eq_of_testBit_eq (fun j => ?_)
  rw [Nat.testBit_or, Nat.one_shiftLeft, Nat.testBit_two_pow,
    testBit_wordOf, testBit_wordOf]
  by_cases hj : j < 64
  · have hiff : 64 * (x / 64) + j = x ↔ x % 64 = j := by omega
    by_cases hx : 64 * (x / 64) + j = x
    · simp [hj, hx, hiff.1 hx, List.mem_cons]
    · have : ¬ (x % 64 = j) := fun hc => hx (hiff.2 hc)
      simp [hj, hx, this, List.mem_cons]
  · have : ¬ (x % 64 = j) := by omega
    simp [hj, this]

theorem wordOf_cons_other {L : List Nat} {x w : Nat} (hw : w ≠ x / 64) :
    wordOf (x :: L) w = wordOf L w := by
  refine Nat.eq_of_testBit_eq (fun j => ?_)
  rw [testBit_wordOf, testBit_wordOf]
  by_cases hj : j < 64
  · have : 64 * w + j ≠ x := by omega
    simp [hj, List.mem_cons, this]
  · simp [hj]

theorem wordsOf_getElem? {L : List Nat} {w : Nat} (hw : w < BITMAP_N) :
    (wordsOf L)[w]? = some (wordOf L w) := by
  simp [wordsOf, List.getElem?_map, List.getElem?_range, hw]

theorem wordsOf_getD {L : List Nat} {w : Nat} (hw : w < BITMAP_N) :
    (wordsOf L).getD w 0 = wordOf L w := by
  rw [List.getD_eq_getElem?_getD, wordsOf_getElem? hw]
  rfl

theorem length_wordsOf (L : List Nat) : (wordsOf L).length = BITMAP_N := by
  simp [wordsOf]

theorem wordsOf_set {L : List Nat} {x : Nat} (hx : x < 65536) :
    (wordsOf L).set (x / 64) (wordOf L (x / 64) ||| (1 <<< (x % 64))) = wordsOf (x :: L) := by
  have hdiv : x / 64 < BITMAP_N := by
    have : BITMAP_N = 1024 := rfl
    omega
  apply List.ext_getElem?
  intro i
  by_cases hi : i < BITMAP_N
  · rw [wordsOf_getElem? hi]
    by_cases hix : i = x / 64
    · subst hix
      rw [List.getElem?_set_self (by rw [length_wordsOf]; exact hdiv)]
      rw [wordOf_set]
    · rw [List.getElem?_set_ne (fun hc => hix hc.symm), wordsOf_getElem? hi,
        wordOf_cons_other hix]
  · rw [List.getElem?_eq_none (by rw [List.length_set, length_wordsOf]; omega),
      List.getElem?_eq_none (by rw [length_wordsOf]; omega)]

theorem wordsOf_congr {L L' : List Nat} (h : ∀ a, a ∈ L ↔ a ∈ L') :
    wordsOf L = wordsOf L' :=
  List.map_congr_left (fun w _ => wordOf_congr h w)

theorem wordsOf_nil : wordsOf [] = List.replicate BITMAP_N 0 := by
  rw [List.eq_replicate_iff]
  refine ⟨length_wordsOf [], ?_⟩
  intro b hb
  rcases List.mem_map.1 hb with ⟨w, -, hw⟩
  rw [← hw, wordOf_eq_zero_iff]
  simp

theorem foldl_setWordBit (A : List Nat) : ∀ (M : List Nat), (∀ v ∈ A, v < 65536) →
    A.foldl setWordBit (wordsOf M) = wordsOf (A.reverse ++ M) := by
  induction A with
  | nil => intro M _; simp
  | cons a A' ih =>
    intro M h
    rw [List.foldl_cons]
    have ha : a < 65536 := h a (List.mem_cons_self _ _)
    have hstep : setWordBit (wordsOf M) a = wordsOf (a :: M) := by
      rw [setWordBit, wordsOf_getD (show a / 64 < BITMAP_N by
            have hB : BITMAP_N = 1024 := rfl
            omega),
        wordsOf_set ha]
    rw [hstep, ih (a :: M) (fun v hv => h v (List.mem_cons_of_mem _ hv))]
    have harr : A'.reverse ++ a :: M = (a :: A').reverse ++ M := by simp
    rw [harr]

theorem wordsOf_eq_foldl {L : List Nat} (h : ∀ v ∈ L, v < 65536) :
    wordsOf L = L.foldl setWordBit (List.replicate BITMAP_N 0) := by
  rw [← wordsOf_nil, foldl_setWordBit L [] h, List.append_nil]
  exact wordsOf_congr (by simp)

/-! ### The canonical container: `add` computes `canonC` -/

theorem type_array_ne_bitmap : Container.TYPE_ARRAY ≠ Container.TYPE_BITMAP := by decide

theorem canonC_nil : canonC [] = Container.init := rfl

theorem canonC_n (L : List Nat) : (canonC L).n = L.length := by
  rw [canonC]; split <;> rfl

theorem convertFun_eq_setWordBit :
    (fun bm bit => bm.set (bit / 64) (bm.getD (bit / 64) 0 ||| (1 <<< (bit % 64)))) = setWordBit :=
  rfl

/-- The membership test of `_bitmap_add` on a canonical word array. -/
theorem bitmapAdd_test {L : List Nat} {x : Nat} (hx : x < 65536) :
    ((wordsOf L).getD (x / 64) 0 &&& (1 <<< (x % 64)) ≠ 0) ↔ x ∈ L := by
  have hdiv : x / 64 < BITMAP_N := by
    have hB : BITMAP_N = 1024 := rfl
    omega
  rw [wordsOf_getD hdiv]
  have := @wordOf_and_test L (x / 64) (x % 64) (by omega)
  rwa [Nat.div_add_mod x 64] at this

/-- `_bitmap_add` on the canonical bitmap container. -/
theorem bitmapAdd_canon {L : List Nat} {x : Nat} (hx : x < 65536) :
    Container.bitmapAdd ⟨[], wordsOf L, [], Container.TYPE_BITMAP, L.length⟩ x =
      if x ∈ L then ⟨[], wordsOf L, [], Container.TYPE_BITMAP, L.length⟩
      else ⟨[], wordsOf (insertSorted x L), [], Container.TYPE_BITMAP, L.length + 1⟩ := by
  simp only [Container.bitmapAdd]
  by_cases hmem : x ∈ L
  · rw [if_pos (by simpa using (bitmapAdd_test hx).2 hmem), if_pos hmem]
  · rw [if_neg (by simpa using fun hc => hmem ((bitmapAdd_test hx).1 hc)), if_neg hmem]
    have hdiv : x / 64 < BITMAP_N := by
      have hB : BITMAP_N = 1024 := rfl
      omega
    have hbm : (wordsOf L).set (x / 64) ((wordsOf L).getD (x / 64) 0 ||| (1 <<< (x % 64)))
        = wordsOf (insertSorted x L) := by
      rw [wordsOf_getD hdiv, wordsOf_set hx]
      exact (wordsOf_congr (fun a => by rw [mem_insertSorted, List.mem_cons])).symm
    rw [hbm]

theorem add_canonC {L : List Nat} {x : Nat} (hs : L.Pairwise (· < ·))
    (hb : ∀ v ∈ L, v < 65536) (hx : x < 65536) :
    (canonC L).add x = canonC (insertSorted x L) := by
  have hAM : ARRAY_MAX_SIZE - 1 = 4095 := rfl
  by_cases hlen : L.length ≤ ARRAY_MAX_SIZE - 1
  · rw [canonC, if_pos hlen, Container.add]
    rw [if_neg (by simpa using type_array_ne_bitmap)]
    simp only
    by_cases hmem : x ∈ L
    · rw [if_pos ((bisect_guard hs x).2 hmem)]
      rw [canonC, insertSorted_of_mem hs hmem, if_pos hlen]
    · rw [if_neg (fun hc => hmem ((bisect_guard hs x).1 hc))]
      by_cases hfull : L.length ≥ ARRAY_MAX_SIZE - 1
      · have hL : L.length = 4095 := by omega
        rw [if_pos hfull, Container.convertToBitmap,
          if_neg (by simpa using type_array_ne_bitmap)]
        simp only [convertFun_eq_setWordBit]
        rw [← wordsOf_eq_foldl hb]
        rw [bitmapAdd_canon hx, if_neg hmem]
        rw [canonC, if_neg (by rw [length_insertSorted_of_not_mem hmem]; omega),
          length_insertSorted_of_not_mem hmem]
      · rw [if_neg hfull]
        rw [canonC, if_pos (by rw [length_insertSorted_of_not_mem hmem]; omega)]
        rw [insortLeft_eq_insertSorted hmem, length_insertSorted_of_not_mem hmem]
  · rw [canonC, if_neg hlen, Container.add, if_pos rfl]
    rw [bitmapAdd_canon hx]
    by_cases hmem : x ∈ L
    · rw [if_pos hmem, canonC, insertSorted_of_mem hs hmem, if_neg hlen]
    · rw [if_neg hmem, canonC,
        if_neg (by rw [length_insertSorted_of_not_mem hmem]; omega),
        length_insertSorted_of_not_mem hmem]

theorem buildC_canonC (xs : List Nat) (h : ∀ v ∈ xs, v < 65536) :
    buildC xs = canonC (sortIns xs) := by
  induction xs using List.reverseRecOn with
  | nil => rfl
  | append_singleton xs v ih =>
    have hxs : ∀ w ∈ xs, w < 65536 := fun w hw => h w (List.mem_append_left _ hw)
    have hv : v < 65536 := h v (List.mem_append_right _ (List.mem_cons_self _ _))
    rw [buildC, List.foldl_append, List.foldl_cons, List.foldl_nil]
    rw [show xs.foldl Container.add Container.init = buildC xs from rfl, ih hxs]
    rw [add_canonC (sortIns_pairwise xs)
      (fun w hw => hxs w (mem_sortIns.1 hw)) hv, sortIns_append]


/-! ### Store-level lemmas: `Bitmap.add` computes `canonStore` -/

theorem storeOf_nil (g : Nat → Container) : storeOf [] g = [] := rfl

theorem storeOf_cons (a : Nat) (t : List Nat) (g : Nat → Container) :
    storeOf (a :: t) g = (a, g a) :: storeOf t g := rfl

theorem storeOf_getElem? (ks : List Nat) (g : Nat → Container) (i : Nat) :
    (storeOf ks g)[i]? = (ks[i]?).map (fun k => (k, g k)) := by
  simp [storeOf, List.getElem?_map]

theorem pairwise_lt_nodup {l : List Nat} (h : l.Pairwise (· < ·)) : l.Nodup :=
  h.imp (fun h2 => Nat.ne_of_lt h2)

theorem lookupIdx_not_mem {ks : List Nat} {g : Nat → Container} {k : Nat}
    (hk : k ∉ ks) : lookupIdx k (storeOf ks g) = none := by
  induction ks with
  | nil => rfl
  | cons a t ih =>
    rw [List.mem_cons, not_or] at hk
    rw [storeOf_cons, lookupIdx]
    by_cases h1 : k ≤ a
    · rw [if_pos h1, if_neg (fun hc => hk.1 hc.symm)]
    · rw [if_neg h1, ih hk.2]
      rfl

theorem lookupIdx_mem {ks : List Nat} {g : Nat → Container} {k : Nat}
    (hs : ks.Pairwise (· < ·)) (hk : k ∈ ks) :
    ∃ i, lookupIdx k (storeOf ks g) = some (i, g k) ∧ ks[i]? = some k := by
  induction ks with
  | nil => cases hk
  | cons a t ih =>
    rw [List.pairwise_cons] at hs
    rcases List.mem_cons.1 hk with h | h
    · subst h
      exact ⟨0, by rw [storeOf_cons, lookupIdx, if_pos le_rfl, if_pos rfl], by simp⟩
    · have hak : a < k := hs.1 k h
      rcases ih hs.2 h with ⟨i, hi1, hi2⟩
      refine ⟨i + 1, ?_, by simpa using hi2⟩
      rw [storeOf_cons, lookupIdx, if_neg (by omega), hi1]
      rfl

theorem modifyAt_storeOf {ks : List Nat} {g : Nat → Container} {k : Nat}
    (f : Container → Container) :
    ∀ {i : Nat}, ks.Nodup → ks[i]? = some k →
      modifyAt f i (storeOf ks g) = storeOf ks (fun k2 => if k2 = k then f (g k) else g k2) := by
  induction ks with
  | nil => intro i _ hi; simp at hi
  | cons a t ih =>
    intro i hnd hi
    rw [List.nodup_cons] at hnd
    cases i with
    | zero =>
      rw [List.getElem?_cons_zero] at hi
      have hak : a = k := by injection hi
      subst hak
      rw [storeOf_cons, storeOf_cons, modifyAt]
      have htail : storeOf t g = storeOf t (fun k2 => if k2 = a then f (g a) else g k2) := by
        apply List.map_congr_left
        intro k2 hk2
        have : k2 ≠ a := fun hc => hnd.1 (hc ▸ hk2)
        simp [this]
      rw [← htail]
      simp
    | succ j =>
      rw [List.getElem?_cons_succ] at hi
      have hkt : k ∈ t := List.getElem?_mem hi
      have hka : a ≠ k := fun hc => hnd.1 (hc ▸ hkt)
      rw [storeOf_cons, storeOf_cons, modifyAt, ih hnd.2 hi]
      simp [hka]

theorem insortIdx_cons (key a : Nat) (c : Container) (t : List (Nat × Container)) :
    insortIdx key ((a, c) :: t) = if key < a then 0 else insortIdx key t + 1 := rfl

theorem insortKC_cons (key a : Nat) (c c2 : Container) (t : List (Nat × Container)) :
    insortKC key c ((a, c2) :: t) =
      if key < a then (key, c) :: (a, c2) :: t else (a, c2) :: insortKC key c t := rfl

theorem modifyAt_zero (f : Container → Container) (a : Nat) (c : Container)
    (t : List (Nat × Container)) : modifyAt f 0 ((a, c) :: t) = (a, f c) :: t := rfl

theorem modifyAt_succ (f : Container → Container) (i : Nat) (kc : Nat × Container)
    (t : List (Nat × Container)) : modifyAt f (i + 1) (kc :: t) = kc :: modifyAt f i t := rfl

theorem insort_create {k : Nat} (f : Container → Container) :
    ∀ {ks : List Nat} (g : Nat → Container), ks.Pairwise (· < ·) → k ∉ ks →
      modifyAt f (insortIdx k (storeOf ks g)) (insortKC k Container.init (storeOf ks g)) =
        storeOf (insertSorted k ks) (fun k2 => if k2 = k then f Container.init else g k2) ∧
      (insertSorted k ks)[insortIdx k (storeOf ks g)]? = some k := by
  intro ks
  induction ks with
  | nil =>
    intro g _ _
    constructor
    · show modifyAt f 0 [(k, Container.init)] = _
      rw [show insertSorted k [] = [k] from rfl, storeOf_cons, storeOf_nil]
      rw [show modifyAt f 0 [(k, Container.init)] = [(k, f Container.init)] from rfl]
      rw [if_pos rfl]
    · rfl
  | cons a t ih =>
    intro g hs hk
    rw [List.pairwise_cons] at hs
    rw [List.mem_cons, not_or] at hk
    have htail : ∀ g2 : Nat → Container,
        storeOf t (fun k2 => if k2 = k then g2 k2 else g k2) = storeOf t g := by
      intro g2
      apply List.map_congr_left
      intro k2 hk2
      have : k2 ≠ k := fun hc => hk.2 (hc ▸ hk2)
      simp [this]
    by_cases h1 : k < a
    · have h2 : a ≠ k := by omega
      rw [storeOf_cons, insortIdx_cons, if_pos h1, insortKC_cons, if_pos h1, modifyAt_zero]
      constructor
      · rw [insertSorted, if_pos h1, storeOf_cons, storeOf_cons, if_pos rfl, if_neg h2]
        have := htail (fun _ => f Container.init)
        congr 1
        congr 1
        calc storeOf t g = storeOf t (fun k2 => if k2 = k then f Container.init else g k2) :=
              (htail (fun _ => f Container.init)).symm
          _ = _ := rfl
      · rw [insertSorted, if_pos h1]
        rfl
    · have hka : a < k := by
        rcases Nat.lt_trichotomy k a with h | h | h
        · exact absurd h h1
        · exact absurd h hk.1
        · exact h
      have h2 : a ≠ k := by omega
      rw [storeOf_cons, insortIdx_cons, if_neg h1, insortKC_cons, if_neg h1, modifyAt_succ]
      rcases ih g hs.2 hk.2 with ⟨ih1, ih2⟩
      constructor
      · rw [insertSorted, if_neg h1, if_neg (fun hc => hk.1 hc), storeOf_cons, ih1, if_neg h2]
      · rw [insertSorted, if_neg h1, if_neg (fun hc => hk.1 hc)]
        simpa using ih2

theorem lowsOf_pairwise (xs : List Nat) (k : Nat) : (lowsOf xs k).Pairwise (· < ·) :=
  sortIns_pairwise _

theorem lowsOf_bounded (xs : List Nat) (k : Nat) : ∀ a ∈ lowsOf xs k, a < 65536 := by
  intro a ha
  rcases List.mem_map.1 (mem_sortIns.1 ha) with ⟨v, -, hv⟩
  have : a ≤ 65535 := by rw [← hv, lowOf]; exact Nat.and_le_right
  omega

theorem lowOf_lt (v : Nat) : lowOf v < 65536 := by
  have : lowOf v ≤ 65535 := Nat.and_le_right
  omega

theorem lowsOf_append_same (xs : List Nat) (v : Nat) :
    lowsOf (xs ++ [v]) (keyOf v) = insertSorted (lowOf v) (lowsOf xs (keyOf v)) := by
  rw [lowsOf, List.filter_append, lowsOf]
  have : List.filter (fun w => keyOf w == keyOf v) [v] = [v] := by simp
  rw [this, List.map_append]
  simpa using sortIns_append _ _

theorem lowsOf_append_other {k : Nat} (xs : List Nat) {v : Nat} (h : k ≠ keyOf v) :
    lowsOf (xs ++ [v]) k = lowsOf xs k := by
  rw [lowsOf, List.filter_append, lowsOf]
  have hne : ¬ (keyOf v = k) := fun hc => h hc.symm
  have : List.filter (fun w => keyOf w == k) [v] = [] := by
    simp [hne]
  rw [this, List.append_nil]

theorem lowsOf_nil_of_not_mem {xs : List Nat} {k : Nat} (h : k ∉ xs.map keyOf) :
    lowsOf xs k = [] := by
  rw [lowsOf]
  have : List.filter (fun w => keyOf w == k) xs = [] := by
    rw [List.filter_eq_nil_iff]
    intro a ha hc
    exact h (List.mem_map.2 ⟨a, ha, by simpa using hc⟩)
  rw [this]
  rfl

theorem lowsOf_ne_nil_of_mem {xs : List Nat} {k : Nat} (h : k ∈ xs.map keyOf) :
    lowsOf xs k ≠ [] := by
  rcases List.mem_map.1 h with ⟨v, hv, hkv⟩
  intro hc
  have : lowOf v ∈ lowsOf xs k := by
    rw [lowsOf, mem_sortIns]
    exact List.mem_map.2 ⟨v, List.mem_filter.2 ⟨hv, by simp [hkv]⟩, rfl⟩
  rw [hc] at this
  exact (List.not_mem_nil _) this

theorem canonStore_def (xs : List Nat) :
    canonStore xs = storeOf (sortIns (xs.map keyOf)) (fun k => canonC (lowsOf xs k)) := rfl

theorem getOrCreate_hit {sc : SliceContainers} {key i : Nat}
    (h1 : key = sc.lastKey) (h2 : sc.lastContainer = some i) :
    sc.getOrCreate key = (sc, i) := by
  rw [SliceContainers.getOrCreate, if_pos ⟨h1, by rw [h2]; rfl⟩, h2]
  rfl

theorem getOrCreate_found {sc : SliceContainers} {key i : Nat} {c : Container}
    (hmiss : ¬(key = sc.lastKey ∧ sc.lastContainer.isSome))
    (hl : lookupIdx key sc.keyContainers = some (i, c)) (hn : c.n ≠ 0) :
    sc.getOrCreate key = ({ sc with lastKey := key, lastContainer := some i }, i) := by
  rw [SliceContainers.getOrCreate, if_neg hmiss]
  simp only [hl]
  rw [if_pos hn]

theorem getOrCreate_create {sc : SliceContainers} {key : Nat}
    (hmiss : ¬(key = sc.lastKey ∧ sc.lastContainer.isSome))
    (hl : lookupIdx key sc.keyContainers = none) :
    sc.getOrCreate key =
      ({ keyContainers := insortKC key Container.init sc.keyContainers,
         lastKey := key, lastContainer := some (insortIdx key sc.keyContainers) },
       insortIdx key sc.keyContainers) := by
  rw [SliceContainers.getOrCreate, if_neg hmiss]
  simp only [hl]

/-- One `Bitmap.add` step on a canonical state. -/
theorem add_canonStore {xs : List Nat} {sc : SliceContainers} (v : Nat)
    (hst : sc.keyContainers = canonStore xs) (hc : sc.cacheOK) :
    (Bitmap.add ⟨sc⟩ v).containers.keyContainers = canonStore (xs ++ [v]) ∧
      (Bitmap.add ⟨sc⟩ v).containers.cacheOK := by
  have hKs : (sortIns (xs.map keyOf)).Pairwise (· < ·) := sortIns_pairwise _
  have hKnd : (sortIns (xs.map keyOf)).Nodup := pairwise_lt_nodup hKs
  have hkeys2 : sortIns ((xs ++ [v]).map keyOf) =
      insertSorted (keyOf v) (sortIns (xs.map keyOf)) := by
    rw [List.map_append]
    simpa using sortIns_append _ _
  have haddc : (canonC (lowsOf xs (keyOf v))).add (lowOf v) =
      canonC (insertSorted (lowOf v) (lowsOf xs (keyOf v))) :=
    add_canonC (lowsOf_pairwise xs (keyOf v)) (lowsOf_bounded xs (keyOf v)) (lowOf_lt v)
  have hshift : ∀ w : Nat, w >>> 16 = keyOf w := fun _ => rfl
  have hand : ∀ w : Nat, w &&& 0xFFFF = lowOf w := fun _ => rfl
  -- the updated entry function equals the canonical one for the new list
  have hfun : ∀ k2 ∈ insertSorted (keyOf v) (sortIns (xs.map keyOf)),
      (if k2 = keyOf v then canonC (insertSorted (lowOf v) (lowsOf xs (keyOf v)))
        else canonC (lowsOf xs k2)) = canonC (lowsOf (xs ++ [v]) k2) := by
    intro k2 _
    by_cases h : k2 = keyOf v
    · subst h
      rw [if_pos rfl, lowsOf_append_same]
    · rw [if_neg h, lowsOf_append_other xs h]
  have hlowv : v &&& 0xFFFF = lowOf v := rfl
  have hkeyv : v >>> 16 = keyOf v := rfl
  simp only [Bitmap.add]
  by_cases hhit : v >>> 16 = sc.lastKey ∧ sc.lastContainer.isSome
  · -- warm-cache hit
    obtain ⟨i, hi⟩ := Option.isSome_iff_exists.1 hhit.2
    rw [getOrCreate_hit hhit.1 hi]
    rcases hc i hi with ⟨c0, hc0⟩
    rw [hst, canonStore_def, storeOf_getElem?] at hc0
    rcases Option.map_eq_some'.1 hc0 with ⟨k1, hk1, hk2⟩
    have hlk : sc.lastKey = keyOf v := by rw [← hhit.1]; rfl
    have hKi : (sortIns (xs.map keyOf))[i]? = some (keyOf v) := by
      rw [hk1]
      have : k1 = sc.lastKey := congrArg Prod.fst hk2
      rw [this, hlk]
    have hmem : keyOf v ∈ sortIns (xs.map keyOf) := List.getElem?_mem hKi
    have hpost : modifyAt (fun c => c.add (v &&& 0xFFFF)) i sc.keyContainers =
        storeOf (sortIns (xs.map keyOf))
          (fun k2 => if k2 = keyOf v then canonC (insertSorted (lowOf v) (lowsOf xs (keyOf v)))
            else canonC (lowsOf xs k2)) := by
      rw [hst, canonStore_def, modifyAt_storeOf _ hKnd hKi]
      apply List.map_congr_left
      intro k2 _
      dsimp only
      by_cases h : k2 = keyOf v
      · subst h
        rw [if_pos rfl, if_pos rfl, hlowv, haddc]
      · rw [if_neg h, if_neg h]
    constructor
    · show modifyAt (fun c => c.add (v &&& 0xFFFF)) i sc.keyContainers = _
      rw [hpost, canonStore_def, hkeys2, insertSorted_of_mem hKs hmem]
      apply List.map_congr_left
      intro k2 hk2
      dsimp only
      rw [hfun k2 (mem_insertSorted.2 (Or.inr hk2))]
    · intro i2 hi2
      have h3 : sc.lastContainer = some i2 := hi2
      rw [hi] at h3
      have hii : i2 = i := by injection h3 with h; omega
      rw [hii]
      refine ⟨canonC (insertSorted (lowOf v) (lowsOf xs (keyOf v))), ?_⟩
      show (modifyAt (fun c => c.add (v &&& 0xFFFF)) i sc.keyContainers)[i]? = _
      rw [hpost, storeOf_getElem?, hKi]
      simp only [Option.map_some]
      simp [hlk]
  · -- cache miss
    by_cases hmem : keyOf v ∈ sortIns (xs.map keyOf)
    · -- the key is present in the store
      rcases lookupIdx_mem (g := fun k => canonC (lowsOf xs k)) hKs hmem with ⟨i, hli, hKi⟩
      have hn : (canonC (lowsOf xs (keyOf v))).n ≠ 0 := by
        rw [canonC_n]
        intro hlen0
        exact lowsOf_ne_nil_of_mem (mem_sortIns.1 hmem) (List.length_eq_zero.1 hlen0)
      have hl2 : lookupIdx (v >>> 16) sc.keyContainers =
          some (i, canonC (lowsOf xs (keyOf v))) := by
        rw [hkeyv, hst, canonStore_def, hli]
      rw [getOrCreate_found hhit hl2 hn]
      have hpost : modifyAt (fun c => c.add (v &&& 0xFFFF)) i sc.keyContainers =
          storeOf (sortIns (xs.map keyOf))
            (fun k2 => if k2 = keyOf v then canonC (insertSorted (lowOf v) (lowsOf xs (keyOf v)))
              else canonC (lowsOf xs k2)) := by
        rw [hst, canonStore_def, modifyAt_storeOf _ hKnd hKi]
        apply List.map_congr_left
        intro k2 _
        dsimp only
        by_cases h : k2 = keyOf v
        · subst h
          rw [if_pos rfl, if_pos rfl, hlowv, haddc]
        · rw [if_neg h, if_neg h]
      constructor
      · show modifyAt (fun c => c.add (v &&& 0xFFFF)) i sc.keyContainers = _
        rw [hpost, canonStore_def, hkeys2, insertSorted_of_mem hKs hmem]
        apply List.map_congr_left
        intro k2 hk2
        dsimp only
        rw [hfun k2 (mem_insertSorted.2 (Or.inr hk2))]
      · intro i2 hi2
        have h3 : (some i : Option Nat) = some i2 := hi2
        have hii : i2 = i := by injection h3 with h; omega
        rw [hii]
        refine ⟨canonC (insertSorted (lowOf v) (lowsOf xs (keyOf v))), ?_⟩
        show (modifyAt (fun c => c.add (v &&& 0xFFFF)) i sc.keyContainers)[i]? = _
        rw [hpost, storeOf_getElem?, hKi]
        simp only [Option.map_some]
        simp [hkeyv]
    · -- new key: a fresh container is created and inserted
      have hl2 : lookupIdx (v >>> 16) sc.keyContainers = none := by
        rw [hkeyv, hst, canonStore_def]
        exact lookupIdx_not_mem hmem
      rw [getOrCreate_create hhit hl2]
      have hnotmap : keyOf v ∉ xs.map keyOf := fun hc2 => hmem (mem_sortIns.2 hc2)
      have hlows : lowsOf xs (keyOf v) = [] := lowsOf_nil_of_not_mem hnotmap
      have haddinit : Container.init.add (v &&& 0xFFFF) =
          canonC (insertSorted (lowOf v) (lowsOf xs (keyOf v))) := by
        rw [hlowv, ← canonC_nil, ← hlows]
        exact haddc
      rcases @insort_create (keyOf v) (fun c => c.add (v &&& 0xFFFF)) (sortIns (xs.map keyOf))
          (fun k => canonC (lowsOf xs k)) hKs hmem with ⟨hins1, hins2⟩
      have hpost : modifyAt (fun c => c.add (v &&& 0xFFFF))
            (insortIdx (v >>> 16) sc.keyContainers)
            (insortKC (v >>> 16) Container.init sc.keyContainers) =
          storeOf (insertSorted (keyOf v) (sortIns (xs.map keyOf)))
            (fun k2 => if k2 = keyOf v then canonC (insertSorted (lowOf v) (lowsOf xs (keyOf v)))
              else canonC (lowsOf xs k2)) := by
        rw [hkeyv, hst, canonStore_def, hins1]
        apply List.map_congr_left
        intro k2 _
        dsimp only
        by_cases h : k2 = keyOf v
        · subst h
          rw [if_pos rfl, if_pos rfl, haddinit]
        · rw [if_neg h, if_neg h]
      constructor
      · show modifyAt (fun c => c.add (v &&& 0xFFFF)) (insortIdx (v >>> 16) sc.keyContainers)
            (insortKC (v >>> 16) Container.init sc.keyContainers) = _
        rw [hpost, canonStore_def, hkeys2]
        apply List.map_congr_left
        intro k2 hk2
        dsimp only
        rw [hfun k2 hk2]
      · intro i2 hi2
        have h3 : (some (insortIdx (v >>> 16) sc.keyContainers) : Option Nat) = some i2 := hi2
        have hii : i2 = insortIdx (v >>> 16) sc.keyContainers := by injection h3 with h; omega
        rw [hii]
        refine ⟨canonC (insertSorted (lowOf v) (lowsOf xs (keyOf v))), ?_⟩
        show (modifyAt (fun c => c.add (v &&& 0xFFFF)) (insortIdx (v >>> 16) sc.keyContainers)
            (insortKC (v >>> 16) Container.init sc.keyContainers))[insortIdx (v >>> 16) sc.keyContainers]? = _
        have hidx : (insertSorted (keyOf v) (sortIns (xs.map keyOf)))[insortIdx (v >>> 16) sc.keyContainers]? =
            some (keyOf v) := by
          rw [hkeyv, hst, canonStore_def]
          exact hins2
        rw [hpost, storeOf_getElem?, hidx]
        simp only [Option.map_some]
        simp [hkeyv]

theorem buildB_canonical (xs : List Nat) :
    (buildB xs).containers.keyContainers = canonStore xs ∧
      (buildB xs).containers.cacheOK := by
  induction xs using List.reverseRecOn with
  | nil =>
    constructor
    · rfl
    · intro i h
      simp [buildB, Bitmap.init, SliceContainers.init] at h
  | append_singleton xs v ih =>
    have hstep : buildB (xs ++ [v]) = Bitmap.add (buildB xs) v := by
      rw [buildB, buildB, List.foldl_append, List.foldl_cons, List.foldl_nil]
    rw [hstep]
    exact add_canonStore v ih.1 ih.2



/-! ### Iteration of canonical containers -/

theorem flatMap_congr {l : List Nat} {f g : Nat → List Nat} (h : ∀ a ∈ l, f a = g a) :
    l.flatMap f = l.flatMap g := by
  induction l with
  | nil => rfl
  | cons a t ih =>
    rw [List.flatMap_cons, List.flatMap_cons, h a (List.mem_cons_self _ _),
      ih (fun b hb => h b (List.mem_cons_of_mem _ hb))]

theorem and_shift_test {val i : Nat} : (val &&& (1 <<< i) = 1 <<< i) ↔ val.testBit i := by
  rw [Nat.one_shiftLeft, Nat.and_two_pow]
  cases h : val.testBit i
  · simp only [Bool.toNat_false, Nat.zero_mul]
    constructor
    · intro hc
      exact absurd hc.symm (by positivity)
    · intro hc
      cases hc
  · simp

theorem bitmapWordBits_zero (w : Nat) : bitmapWordBits w 0 = [] := by
  rw [bitmapWordBits]
  rw [List.filterMap_eq_nil_iff]
  intro i _
  rw [if_neg]
  intro hc
  rw [Nat.zero_and] at hc
  have : (1 <<< i) ≠ 0 := by
    rw [Nat.one_shiftLeft]
    positivity
  exact this hc.symm

theorem mem_bitmapWordBits {w val x : Nat} :
    x ∈ bitmapWordBits w val ↔ ∃ i, i < 64 ∧ val.testBit i ∧ x = w * 64 + i := by
  rw [bitmapWordBits, List.mem_filterMap]
  constructor
  · rintro ⟨i, hi, hsome⟩
    rw [List.mem_range] at hi
    by_cases hc : val &&& (1 <<< i) = 1 <<< i
    · rw [if_pos hc] at hsome
      injection hsome with hx
      exact ⟨i, hi, and_shift_test.1 hc, hx.symm⟩
    · rw [if_neg hc] at hsome
      cases hsome
  · rintro ⟨i, hi, htb, hx⟩
    exact ⟨i, List.mem_range.2 hi, by rw [if_pos (and_shift_test.2 htb), hx]⟩

theorem pairwise_bitmapWordBits (w val : Nat) : (bitmapWordBits w val).Pairwise (· < ·) := by
  rw [bitmapWordBits]
  refine List.pairwise_filterMap.2 ((List.pairwise_lt_range 64).imp ?_)
  intro a b hab x hx y hy
  by_cases hca : val &&& (1 <<< a) = 1 <<< a
  · rw [if_pos hca, Option.mem_def] at hx
    injection hx with hx
    by_cases hcb : val &&& (1 <<< b) = 1 <<< b
    · rw [if_pos hcb, Option.mem_def] at hy
      injection hy with hy
      omega
    · rw [if_neg hcb] at hy
      cases hy
  · rw [if_neg hca] at hx
    cases hx

theorem bitmapIter_eq (L : List Nat) (n : Nat) :
    (Container.iterate ⟨[], wordsOf L, [], Container.TYPE_BITMAP, n⟩) =
      (List.range BITMAP_N).flatMap (fun w => bitmapWordBits w (wordOf L w)) := by
  have h1 : ¬ ((⟨[], wordsOf L, [], Container.TYPE_BITMAP, n⟩ : Container).type
      = Container.TYPE_ARRAY) := by
    show ¬ (Container.TYPE_BITMAP = Container.TYPE_ARRAY)
    decide
  rw [Container.iterate, if_neg h1, if_pos rfl]
  show (wordsOf L).enum.flatMap _ = _
  have henum : (wordsOf L).enum = (List.range BITMAP_N).map (fun w => (w, wordOf L w)) := by
    rw [List.enum_eq_zip_range, length_wordsOf, wordsOf]
    calc (List.range BITMAP_N).zip ((List.range BITMAP_N).map (wordOf L))
        = ((List.range BITMAP_N).map id).zip ((List.range BITMAP_N).map (wordOf L)) := by
          rw [List.map_id]
      _ = (List.range BITMAP_N).map (fun w => (id w, wordOf L w)) :=
          List.zip_map' id (wordOf L) (List.range BITMAP_N)
      _ = (List.range BITMAP_N).map (fun w => (w, wordOf L w)) := rfl
  rw [henum, List.flatMap_map]
  apply flatMap_congr
  intro w _
  by_cases h : wordOf L w = 0
  · rw [if_pos h, h, bitmapWordBits_zero]
  · rw [if_neg h]

theorem iterate_canon_bitmap {L : List Nat} (hs : L.Pairwise (· < ·))
    (hb : ∀ v ∈ L, v < 65536) (n : Nat) :
    Container.iterate ⟨[], wordsOf L, [], Container.TYPE_BITMAP, n⟩ = L := by
  rw [bitmapIter_eq]
  refine sorted_mem_ext ?_ hs ?_
  · rw [List.pairwise_flatMap]
    constructor
    · intro w _
      exact pairwise_bitmapWordBits _ _
    · refine (List.pairwise_lt_range _).imp ?_
      intro w w2 hww x hx y hy
      rcases mem_bitmapWordBits.1 hx with ⟨i, hi, -, hxi⟩
      rcases mem_bitmapWordBits.1 hy with ⟨j, hj, -, hyj⟩
      omega
  · intro a
    rw [List.mem_flatMap]
    constructor
    · rintro ⟨w, hw, ha⟩
      rcases mem_bitmapWordBits.1 ha with ⟨i, hi, htb, hxi⟩
      rw [testBit_wordOf, Bool.and_eq_true] at htb
      have : 64 * w + i ∈ L := of_decide_eq_true htb.2
      have hax : a = 64 * w + i := by omega
      rwa [hax]
    · intro ha
      have hb2 : a < 65536 := hb a ha
      refine ⟨a / 64, List.mem_range.2 (by
        have hB : BITMAP_N = 1024 := rfl
        omega), ?_⟩
      rw [mem_bitmapWordBits]
      refine ⟨a % 64, ?_, ?_, ?_⟩
      · omega
      · rw [testBit_wordOf]
        have : 64 * (a / 64) + a % 64 ∈ L := by
          rw [Nat.div_add_mod]
          exact ha
        have h64 : a % 64 < 64 := by omega
        simp [this, h64]
      · omega

theorem iterate_canonC {L : List Nat} (hs : L.Pairwise (· < ·))
    (hb : ∀ v ∈ L, v < 65536) : (canonC L).iterate = L := by
  rw [canonC]
  split
  · rw [Container.iterate, if_pos rfl]
  · exact iterate_canon_bitmap hs hb _

theorem storeOf_keys (ks : List Nat) (g : Nat → Container) :
    (storeOf ks g).map Prod.fst = ks := by
  rw [storeOf, List.map_map]
  show ks.map (fun k => k) = ks
  exact List.map_id _

/-- Iteration of a canonical store, in closed form. -/
theorem iterate_canonStore (xs : List Nat) :
    SliceContainers.iterate ⟨canonStore xs, lk, lc⟩ =
      (sortIns (xs.map keyOf)).flatMap
        (fun k => (lowsOf xs k).map (fun low => (k <<< 16) + low)) := by
  rw [SliceContainers.iterate]
  show (canonStore xs).flatMap _ = _
  rw [canonStore_def, storeOf, List.flatMap_map]
  apply flatMap_congr
  intro k _
  rw [iterate_canonC (lowsOf_pairwise xs k) (lowsOf_bounded xs k)]

/-- Iteration of a built bitmap is strictly ascending. -/
theorem iterate_buildB_pairwise (xs : List Nat) :
    ((buildB xs).iterate).Pairwise (· < ·) := by
  have hst := (buildB_canonical xs).1
  have hiter : (buildB xs).iterate =
      (sortIns (xs.map keyOf)).flatMap
        (fun k => (lowsOf xs k).map (fun low => (k <<< 16) + low)) := by
    rw [Bitmap.iterate]
    have : (buildB xs).containers =
        ⟨canonStore xs, (buildB xs).containers.lastKey, (buildB xs).containers.lastContainer⟩ := by
      rw [← hst]
    rw [this, iterate_canonStore]
  rw [hiter, List.pairwise_flatMap]
  constructor
  · intro k _
    refine List.pairwise_map.2 ((lowsOf_pairwise xs k).imp ?_)
    intro a b hab
    omega
  · refine (sortIns_pairwise _).imp ?_
    intro k k2 hkk x hx y hy
    rcases List.mem_map.1 hx with ⟨a, ha, hxa⟩
    rcases List.mem_map.1 hy with ⟨b, hb2, hyb⟩
    have ha2 : a < 65536 := lowsOf_bounded xs k a ha
    have hsh : ∀ m : Nat, m <<< 16 = m * 65536 := fun m => by
      rw [Nat.shiftLeft_eq]
    rw [hsh] at hxa hyb
    omega


/-! ### `to_runs` on structured inputs -/

theorem toRunsAux_absorb : ∀ (m s t : Nat) (rest : List Nat),
    toRunsAux s t (List.range' (t + 1) m ++ rest) = toRunsAux s (t + m) rest := by
  intro m
  induction m with
  | zero => intro s t rest; simp
  | succ m ih =>
    intro s t rest
    rw [List.range'_succ, List.cons_append, toRunsAux, if_pos rfl, ih]
    congr 1
    omega

theorem toRunsAux_break {s t b : Nat} (h : b ≠ t + 1) (rest : List Nat) :
    toRunsAux s t (b :: rest) = (s, t) :: toRunsAux b b rest := by
  rw [toRunsAux, if_neg h]

theorem toRunsAux_blocks (blocks : List (Nat × Nat)) : ∀ (s t : Nat),
    (∀ p ∈ blocks, 1 ≤ p.2) → (∀ p ∈ blocks, t + 1 < p.1) →
    List.Pairwise (fun p q => p.1 + p.2 < q.1) blocks →
    toRunsAux s t (blocks.flatMap (fun p => List.range' p.1 p.2)) =
      (s, t) :: blocks.map (fun p => (p.1, p.1 + p.2 - 1)) := by
  induction blocks with
  | nil => intro s t _ _ _; rfl
  | cons p bs ih =>
    intro s t h1 h2 hsep
    rw [List.pairwise_cons] at hsep
    have hp1 : 1 ≤ p.2 := h1 p (List.mem_cons_self _ _)
    have hpt : t + 1 < p.1 := h2 p (List.mem_cons_self _ _)
    rw [List.flatMap_cons]
    have hr : List.range' p.1 p.2 = p.1 :: List.range' (p.1 + 1) (p.2 - 1) := by
      have : p.2 = (p.2 - 1) + 1 := by omega
      rw [this, List.range'_succ]
      congr 2
    rw [hr, List.cons_append]
    rw [toRunsAux_break (show p.1 ≠ t + 1 by omega)]
    rw [toRunsAux_absorb]
    rw [ih p.1 (p.1 + (p.2 - 1)) (fun q hq => h1 q (List.mem_cons_of_mem _ hq))
      (fun q hq => by have := hsep.1 q hq; omega) hsep.2]
    rw [List.map_cons]
    have harith : p.1 + (p.2 - 1) = p.1 + p.2 - 1 := by omega
    rw [harith]

theorem to_runs_blocks {blocks : List (Nat × Nat)}
    (h1 : ∀ p ∈ blocks, 1 ≤ p.2)
    (hsep : List.Pairwise (fun p q => p.1 + p.2 < q.1) blocks) :
    to_runs (blocks.flatMap (fun p => List.range' p.1 p.2)) =
      blocks.map (fun p => (p.1, p.1 + p.2 - 1)) := by
  cases blocks with
  | nil => rfl
  | cons p bs =>
    rw [List.pairwise_cons] at hsep
    have hp1 : 1 ≤ p.2 := h1 p (List.mem_cons_self _ _)
    rw [List.flatMap_cons]
    have hr : List.range' p.1 p.2 = p.1 :: List.range' (p.1 + 1) (p.2 - 1) := by
      have : p.2 = (p.2 - 1) + 1 := by omega
      rw [this, List.range'_succ]
      congr 2
    rw [hr, List.cons_append, to_runs, toRunsAux_absorb]
    rw [toRunsAux_blocks bs p.1 (p.1 + (p.2 - 1))
      (fun q hq => h1 q (List.mem_cons_of_mem _ hq))
      (fun q hq => by have := hsep.1 q hq; omega) hsep.2]
    rw [List.map_cons]
    have harith : p.1 + (p.2 - 1) = p.1 + p.2 - 1 := by omega
    rw [harith]

theorem to_runs_range' {s k : Nat} (hk : 1 ≤ k) :
    to_runs (List.range' s k) = [(s, s + k - 1)] := by
  have h := @to_runs_blocks [(s, k)] (by simpa using hk) (by simp)
  simpa using h

theorem to_runs_range {n : Nat} (hn : 1 ≤ n) :
    to_runs (List.range n) = [(0, n - 1)] := by
  rw [List.range_eq_range', to_runs_range' hn]
  norm_num

/-- A list whose neighbours always differ by more than one turns into
singleton runs. -/
theorem to_runs_gaps {L : List Nat} (h : L.Pairwise (fun a b => a + 1 < b)) :
    to_runs L = L.map (fun v => (v, v)) := by
  have hL : (L.map (fun v => ((v, 1) : Nat × Nat))).flatMap (fun p => List.range' p.1 p.2) = L := by
    rw [List.flatMap_map]
    simp
  have h1 : ∀ p ∈ L.map (fun v => ((v, 1) : Nat × Nat)), 1 ≤ p.2 := by
    intro p hp
    rcases List.mem_map.1 hp with ⟨v, -, hv⟩
    rw [← hv]
  have hsep : List.Pairwise (fun p q : Nat × Nat => p.1 + p.2 < q.1)
      (L.map (fun v => ((v, 1) : Nat × Nat))) := by
    rw [List.pairwise_map]
    exact h.imp (fun hab => by omega)
  calc to_runs L
      = to_runs ((L.map (fun v => ((v, 1) : Nat × Nat))).flatMap (fun p => List.range' p.1 p.2)) := by
        rw [hL]
    _ = (L.map (fun v => ((v, 1) : Nat × Nat))).map (fun p => (p.1, p.1 + p.2 - 1)) :=
        to_runs_blocks h1 hsep
    _ = L.map (fun v => (v, v)) := by
        rw [List.map_map]
        apply List.map_congr_left
        intro v _
        show (v, v + 1 - 1) = (v, v)
        norm_num


/-! ### `_optimized` on reachable containers -/

theorem canonC_type_not_rle (L : List Nat) : ¬ ((canonC L).type = Container.TYPE_RLE) := by
  rw [canonC]
  split
  · show ¬ (Container.TYPE_ARRAY = Container.TYPE_RLE)
    decide
  · show ¬ (Container.TYPE_BITMAP = Container.TYPE_RLE)
    decide

theorem convertToRuns_canonC {L : List Nat} (hs : L.Pairwise (· < ·))
    (hb : ∀ v ∈ L, v < 65536) :
    (canonC L).convertToRuns =
      if (to_runs L).length > RUN_MAX_SIZE then canonC L else rleC L := by
  rw [Container.convertToRuns, if_neg (canonC_type_not_rle L), iterate_canonC hs hb]
  by_cases hr : (to_runs L).length > RUN_MAX_SIZE
  · rw [if_pos hr, if_pos hr]
  · rw [if_neg hr, if_neg hr, rleC, canonC]
    split
    · rfl
    · rfl

theorem serializationCost_rleC (L : List Nat) :
    (rleC L).serializationCost = some (16 * (to_runs L).length + 2) := rfl

theorem serializationCost_canonC (L : List Nat) :
    (canonC L).serializationCost = some (costCanon L) := by
  rw [canonC, costCanon]
  by_cases hlen : L.length ≤ ARRAY_MAX_SIZE - 1
  · rw [if_pos hlen, if_pos hlen]
    rfl
  · rw [if_neg hlen, if_neg hlen]
    rfl

/-- What `_optimized` actually chooses on a reachable container: keep the
current encoding unless runs fit (`r ≤ 2048`) and the cost-map value
`16r + 2` beats the current encoding's cost-map value. -/
theorem optimized_canonC {L : List Nat} (hs : L.Pairwise (· < ·))
    (hb : ∀ v ∈ L, v < 65536) :
    (canonC L).optimized = some (
      if (to_runs L).length ≤ RUN_MAX_SIZE ∧ 16 * (to_runs L).length + 2 < costCanon L
      then rleC L else canonC L) := by
  rw [Container.optimized, convertToRuns_canonC hs hb]
  by_cases hr : (to_runs L).length > RUN_MAX_SIZE
  · rw [if_pos hr, serializationCost_canonC]
    show some (if costCanon L < costCanon L then _ else canonC L) = _
    rw [if_neg (lt_irrefl _), if_neg (by omega)]
  · rw [if_neg hr, serializationCost_rleC, serializationCost_canonC]
    show some (if 16 * (to_runs L).length + 2 < costCanon L then rleC L else canonC L) = _
    by_cases hcost : 16 * (to_runs L).length + 2 < costCanon L
    · rw [if_pos hcost, if_pos ⟨by omega, hcost⟩]
    · rw [if_neg hcost, if_neg (fun hc => hcost hc.2)]

theorem optimizedD_canonC {L : List Nat} (hs : L.Pairwise (· < ·))
    (hb : ∀ v ∈ L, v < 65536) :
    (canonC L).optimizedD =
      if (to_runs L).length ≤ RUN_MAX_SIZE ∧ 16 * (to_runs L).length + 2 < costCanon L
      then rleC L else canonC L := by
  rw [Container.optimizedD, optimized_canonC hs hb]
  rfl

theorem validType_canonC (L : List Nat) : (canonC L).validType := by
  rw [canonC]
  split
  · exact Or.inl rfl
  · exact Or.inr (Or.inl rfl)

theorem validType_rleC (L : List Nat) : (rleC L).validType := Or.inr (Or.inr rfl)

theorem cost_some_of_valid {c : Container} (h : c.validType) :
    ∃ a, c.serializationCost = some a := by
  rcases h with h | h | h
  · exact ⟨8 * c.array.length, by rw [Container.serializationCost, if_pos h]⟩
  · refine ⟨8 * (c.bitmap.filter (fun x => x != 0)).length, ?_⟩
    rw [Container.serializationCost, if_neg (by rw [h]; decide), if_pos h]
  · refine ⟨16 * c.runs.length + 2, ?_⟩
    rw [Container.serializationCost, if_neg (by rw [h]; decide),
      if_neg (by rw [h]; decide), if_pos h]

theorem convertToRuns_valid {c : Container} (h : c.validType) :
    (c.convertToRuns).validType := by
  rw [Container.convertToRuns]
  split
  · exact h
  · show (if (to_runs c.iterate).length > RUN_MAX_SIZE then c else _).validType
    split
    · exact h
    · exact Or.inr (Or.inr rfl)

theorem optimized_eq_some_of_valid {c : Container} (h : c.validType) :
    c.optimized = some c.optimizedD := by
  rcases cost_some_of_valid (convertToRuns_valid h) with ⟨a, ha⟩
  rcases cost_some_of_valid h with ⟨b, hb⟩
  rw [Container.optimizedD, Container.optimized, ha, hb]
  rfl

theorem opt_step_eq {c : Container} (h : c.validType) (opt : Bool) :
    (if opt then c.optimized else some c) = some (if opt then c.optimizedD else c) := by
  cases opt
  · rfl
  · rw [if_pos rfl, if_pos rfl]
    exact optimized_eq_some_of_valid h

theorem validType_optimizedD_canonC {L : List Nat} (hs : L.Pairwise (· < ·))
    (hb : ∀ v ∈ L, v < 65536) : ((canonC L).optimizedD).validType := by
  rw [optimizedD_canonC hs hb]
  split
  · exact validType_rleC L
  · exact validType_canonC L


/-! ### Payload bytes of a valid container -/

theorem flatMap_const_length {α : Type} (f : α → List Nat) (k : Nat)
    (h : ∀ a, (f a).length = k) : ∀ l : List α, (l.flatMap f).length = k * l.length := by
  intro l
  induction l with
  | nil => simp
  | cons a t ih =>
    rw [List.flatMap_cons, List.length_append, ih, h a, List.length_cons]
    ring

theorem length_u16le (v : Nat) : (u16le v).length = 2 := rfl

theorem length_u32le (v : Nat) : (u32le v).length = 4 := rfl

theorem length_u64le (v : Nat) : (u64le v).length = 8 := rfl

theorem payload_array {c : Container} (h : c.type = Container.TYPE_ARRAY) :
    c.payload = c.array.flatMap u16le := by
  rw [Container.payload, if_pos h]

theorem payload_bitmap {c : Container} (h : c.type = Container.TYPE_BITMAP) :
    c.payload = c.bitmap.flatMap u64le := by
  rw [Container.payload, if_neg (by rw [h]; decide), if_pos h]

theorem payload_rle {c : Container} (h : c.type = Container.TYPE_RLE) :
    c.payload = u16le c.runs.length ++ c.runs.flatMap (fun sl => u16le sl.1 ++ u16le sl.2) := by
  rw [Container.payload, if_neg (by rw [h]; decide), if_neg (by rw [h]; decide)]

theorem emitSize_array {c : Container} (h : c.type = Container.TYPE_ARRAY) :
    c.emitSize = 2 * c.array.length := by
  rw [Container.emitSize, payload_array h, flatMap_const_length u16le 2 length_u16le]

theorem emitSize_bitmap {c : Container} (h : c.type = Container.TYPE_BITMAP) :
    c.emitSize = 8 * c.bitmap.length := by
  rw [Container.emitSize, payload_bitmap h, flatMap_const_length u64le 8 length_u64le]

theorem emitSize_rle {c : Container} (h : c.type = Container.TYPE_RLE) :
    c.emitSize = 2 + 4 * c.runs.length := by
  rw [Container.emitSize, payload_rle h, List.length_append, length_u16le,
    flatMap_const_length (fun sl : Nat × Nat => u16le sl.1 ++ u16le sl.2) 4 (fun sl => rfl)]

theorem rleFold_ok (runs : List (Nat × Nat)) : ∀ (buf : List Nat) (k : Nat),
    runs.foldl (rleWriteStep bytesIOWrite) (Except.ok (buf, k)) =
    (Except.ok (buf ++ runs.flatMap (fun sl => u16le sl.1 ++ u16le sl.2), k + 4 * runs.length) :
      Except (WriteErr Empty) (List Nat × Nat)) := by
  induction runs with
  | nil => intro buf k; simp
  | cons sl t ih =>
    intro buf k
    rw [List.foldl_cons]
    show t.foldl _ (Except.ok (buf ++ (u16le sl.1 ++ u16le sl.2), k + 4)) = _
    rw [ih, List.flatMap_cons, List.append_assoc, List.length_cons]
    congr 2
    ring

theorem writeBytes_of_valid {c : Container} (h : c.validType) :
    c.writeBytes = some (c.payload, c.payload.length) := by
  rcases h with h | h | h
  · rw [Container.writeBytes, Container.writeToE, if_pos h, payload_array h]
    rfl
  · rw [Container.writeBytes, Container.writeToE, if_neg (by rw [h]; decide), if_pos h,
      payload_bitmap h]
    rfl
  · have hE : c.writeToE bytesIOWrite [] =
        .ok (u16le c.runs.length ++ c.runs.flatMap (fun sl => u16le sl.1 ++ u16le sl.2),
          2 + 4 * c.runs.length) := by
      rw [Container.writeToE, if_neg (by rw [h]; decide), if_neg (by rw [h]; decide), if_pos h]
      have hw : bytesIOWrite [] (u16le c.runs.length) =
          (.ok (u16le c.runs.length, 2) : Except Empty (List Nat × Nat)) := rfl
      split
      · rename_i e heq
        exact e.elim
      · rename_i sw heq
        rw [hw] at heq
        injection heq with heq2
        rw [← heq2]
        exact rleFold_ok c.runs (u16le c.runs.length) 2
    have hlen : (u16le c.runs.length ++
        c.runs.flatMap (fun sl => u16le sl.1 ++ u16le sl.2)).length = 2 + 4 * c.runs.length := by
      rw [List.length_append, length_u16le,
        flatMap_const_length (fun sl : Nat × Nat => u16le sl.1 ++ u16le sl.2) 4 (fun sl => rfl)]
    rw [Container.writeBytes, hE, payload_rle h, hlen]


/-! ### Structure of the emitted stream -/

theorem offsetsList_nil (base : Nat) : offsetsList [] base = [] := by
  simp [offsetsList]

theorem offsetsList_cons (c : Container) (cs : List Container) (base : Nat) :
    offsetsList (c :: cs) base = base :: offsetsList cs (base + c.emitSize) := by
  rw [offsetsList, offsetsList, List.length_cons, List.range_succ_eq_map, List.map_cons]
  congr 1
  rw [List.map_map]
  apply List.map_congr_left
  intro i _
  show base + (List.map Container.emitSize (List.take (i + 1) (c :: cs))).sum =
    base + c.emitSize + (List.map Container.emitSize (List.take i cs)).sum
  rw [List.take_succ_cons, List.map_cons, List.sum_cons]
  omega

theorem dataPass_eq : ∀ (cs : List Container), ∀ (base : Nat), (∀ c ∈ cs, c.validType) →
    dataPass cs base = some ((offsetsList cs base).flatMap u32le,
      cs.flatMap Container.payload, base + (cs.map Container.emitSize).sum) := by
  intro cs
  induction cs with
  | nil =>
    intro base _
    rw [dataPass, offsetsList_nil]
    simp
  | cons c t ih =>
    intro base h
    rw [dataPass]
    simp only [writeBytes_of_valid (h c (List.mem_cons_self _ _))]
    simp only [ih (base + c.payload.length) (fun d hd => h d (List.mem_cons_of_mem _ hd))]
    rw [offsetsList_cons, List.flatMap_cons, List.flatMap_cons, List.map_cons, List.sum_cons]
    have h1 : c.emitSize = c.payload.length := rfl
    rw [h1]
    have h2 : base + c.payload.length + (t.map Container.emitSize).sum =
        base + (c.payload.length + (t.map Container.emitSize).sum) := by omega
    rw [h2]

theorem optimizedD_mem {c : Container} (h : c.validType) :
    c.optimizedD = c.convertToRuns ∨ c.optimizedD = c := by
  rcases cost_some_of_valid (convertToRuns_valid h) with ⟨a, ha⟩
  rcases cost_some_of_valid h with ⟨b, hb⟩
  rw [Container.optimizedD, Container.optimized, ha, hb]
  show (if a < b then c.convertToRuns else c) = c.convertToRuns ∨
    (if a < b then c.convertToRuns else c) = c
  split
  · exact Or.inl rfl
  · exact Or.inr rfl

theorem metaPass_eq (opt : Bool) : ∀ (l : List (Nat × Container)),
    (∀ kc ∈ l, kc.2.validType) →
    metaPass l opt = some (
      (l.filter (fun kc => kc.2.n > 0)).flatMap
        (fun kc => u64le kc.1 ++ u16le ((if opt then kc.2.optimizedD else kc.2).type)
          ++ u16le (kc.2.n - 1)),
      (l.filter (fun kc => kc.2.n > 0)).map (fun kc => if opt then kc.2.optimizedD else kc.2)) := by
  intro l
  induction l with
  | nil => intro _; rfl
  | cons kc t ih =>
    intro h
    obtain ⟨key, c⟩ := kc
    rw [metaPass]
    by_cases hn : c.n < 1
    · rw [if_pos hn, ih (fun d hd => h d (List.mem_cons_of_mem _ hd)),
        List.filter_cons_of_neg (by simp; omega)]
    · rw [if_neg hn]
      simp only [opt_step_eq (h (key, c) (List.mem_cons_self _ _)) opt]
      simp only [ih (fun d hd => h d (List.mem_cons_of_mem _ hd))]
      rw [List.filter_cons_of_pos (by simp; omega), List.flatMap_cons, List.map_cons]

/-- Full structure of the bytes and return value of `write_to` on a store of
valid containers. -/
theorem writeTo_eq {sc : SliceContainers} (h : ∀ kc ∈ sc.keyContainers, kc.2.validType)
    (opt : Bool) :
    sc.writeTo opt = some (
      u32le COOKIE
        ++ u32le (sc.keyContainers.filter (fun kc => kc.2.n > 0)).length
        ++ (sc.keyContainers.filter (fun kc => kc.2.n > 0)).flatMap
          (fun kc => u64le kc.1 ++ u16le ((if opt then kc.2.optimizedD else kc.2).type)
            ++ u16le (kc.2.n - 1))
        ++ (offsetsList ((sc.keyContainers.filter (fun kc => kc.2.n > 0)).map
              (fun kc => if opt then kc.2.optimizedD else kc.2))
            (HEADER_BASE_SIZE + (sc.keyContainers.filter (fun kc => kc.2.n > 0)).length * 16)).flatMap u32le
        ++ ((sc.keyContainers.filter (fun kc => kc.2.n > 0)).map
              (fun kc => if opt then kc.2.optimizedD else kc.2)).flatMap Container.payload,
      HEADER_BASE_SIZE + (sc.keyContainers.filter (fun kc => kc.2.n > 0)).length * 16
        + (((sc.keyContainers.filter (fun kc => kc.2.n > 0)).map
              (fun kc => if opt then kc.2.optimizedD else kc.2)).map Container.emitSize).sum) := by
  have hvalid2 : ∀ c ∈ (sc.keyContainers.filter (fun kc => kc.2.n > 0)).map
      (fun kc => if opt then kc.2.optimizedD else kc.2), c.validType := by
    intro c hc
    rcases List.mem_map.1 hc with ⟨kc, hkc, hckc⟩
    have hv : kc.2.validType := h kc (List.mem_of_mem_filter hkc)
    rw [← hckc]
    cases opt
    · exact hv
    · show (kc.2.optimizedD).validType
      rcases optimizedD_mem hv with h2 | h2
      · rw [h2]; exact convertToRuns_valid hv
      · rw [h2]; exact hv
  rw [SliceContainers.writeTo]
  simp only [metaPass_eq opt sc.keyContainers h]
  simp only [dataPass_eq _ _ hvalid2]


/-! ### The write pass does not modify the store -/

theorem metaPassTracked_eq (opt : Bool) : ∀ l : List (Nat × Container),
    metaPassTracked l opt = (metaPass l opt).map (fun r => (r.1, r.2, l)) := by
  intro l
  induction l with
  | nil => rfl
  | cons kc t ih =>
    obtain ⟨key, c⟩ := kc
    rw [metaPassTracked, metaPass]
    by_cases hn : c.n < 1
    · rw [if_pos hn, if_pos hn, ih]
      cases h : metaPass t opt with
      | none => rfl
      | some r => rfl
    · rw [if_neg hn, if_neg hn]
      cases ho : (if opt then c.optimized else some c) with
      | none => rfl
      | some c2 =>
        rw [ih]
        cases h : metaPass t opt with
        | none => rfl
        | some r => rfl

theorem writeToTracked_eq (sc : SliceContainers) (opt : Bool) :
    sc.writeToTracked opt = (sc.writeTo opt).map (fun r => (r, sc)) := by
  rw [SliceContainers.writeToTracked, SliceContainers.writeTo, metaPassTracked_eq]
  rcases h : metaPass sc.keyContainers opt with _ | ⟨mb, cs⟩
  · simp
  · simp only [Option.map_some]
    rcases h2 : dataPass cs (HEADER_BASE_SIZE +
        (sc.keyContainers.filter (fun kc => kc.2.n > 0)).length * (8 + 2 + 2 + 4)) with _ | ⟨obs, dbs, fin⟩
    · simp [h2]
    · simp [h2]

/-! ### Error behaviour of `Container.write_to` -/

theorem rleFold_error {σ : Type u} {ε : Type v}
    {write : σ → List Nat → Except ε (σ × Nat)} {er : WriteErr ε} :
    ∀ (runs : List (Nat × Nat)) (acc : Except (WriteErr ε) (σ × Nat)),
      runs.foldl (rleWriteStep write) acc = .error er →
      acc = .error er ∨ ∃ s2 bs e, write s2 bs = .error e ∧ er = WriteErr.sinkErr e := by
  intro runs
  induction runs with
  | nil => intro acc h; exact Or.inl h
  | cons sl t ih =>
    intro acc h
    rw [List.foldl_cons] at h
    rcases ih (rleWriteStep write acc sl) h with h2 | h2
    · cases acc with
      | error e =>
        left
        rw [← h2]
        rfl
      | ok p =>
        obtain ⟨st, k⟩ := p
        right
        rw [rleWriteStep] at h2
        cases hw : write st (u16le sl.1 ++ u16le sl.2) with
        | ok r =>
          rw [hw] at h2
          cases h2
        | error e =>
          rw [hw] at h2
          injection h2 with h3
          exact ⟨st, u16le sl.1 ++ u16le sl.2, e, hw, h3.symm⟩
    · exact Or.inr h2

theorem rleFold_ok_of_ok {σ : Type u} {ε : Type v}
    {write : σ → List Nat → Except ε (σ × Nat)}
    (hgood : ∀ s2 bs, ∃ r, write s2 bs = .ok r) :
    ∀ (runs : List (Nat × Nat)) (p : σ × Nat),
      ∃ r, runs.foldl (rleWriteStep write) (.ok p) = .ok r := by
  intro runs
  induction runs with
  | nil => intro p; exact ⟨p, rfl⟩
  | cons sl t ih =>
    intro p
    obtain ⟨st, k⟩ := p
    rw [List.foldl_cons]
    rcases hgood st (u16le sl.1 ++ u16le sl.2) with ⟨r2, hr2⟩
    have hstep : rleWriteStep write (.ok (st, k)) sl = .ok (r2.1, k + r2.2) := by
      rw [rleWriteStep, hr2]
    rw [hstep]
    exact ih _

/-! ### Decoding, total length, and offset-record lemmas -/

theorem u16dec_u16le (v : Nat) : u16dec (u16le v) = v % 65536 := by
  have h8 : (2 : Nat) ^ 8 = 256 := by norm_num
  show v % 256 + 256 * (v / 2 ^ 8 % 256) = v % 65536
  rw [h8]
  omega

theorem u32dec_u32le (v : Nat) : u32dec (u32le v) = v % 4294967296 := by
  have h8 : (2 : Nat) ^ 8 = 256 := by norm_num
  have h16 : (2 : Nat) ^ 16 = 65536 := by norm_num
  have h24 : (2 : Nat) ^ 24 = 16777216 := by norm_num
  show v % 256 + 256 * (v / 2 ^ 8 % 256) + 65536 * (v / 2 ^ 16 % 256)
      + 16777216 * (v / 2 ^ 24 % 256) = v % 4294967296
  rw [h8, h16, h24]
  omega

theorem keyOf_eq_div (v : Nat) : keyOf v = v / 65536 := by
  rw [keyOf, Nat.shiftRight_eq_div_pow]

theorem lowOf_eq_mod (v : Nat) : lowOf v = v % 65536 := by
  have h : (65535 : Nat) = 2 ^ 16 - 1 := by norm_num
  rw [lowOf]
  show v &&& 65535 = v % 65536
  rw [h, Nat.and_pow_two_sub_one_eq_mod]

theorem offsetsList_length (cs : List Container) (base : Nat) :
    (offsetsList cs base).length = cs.length := by
  rw [offsetsList, List.length_map, List.length_range]

theorem offsetsList_getElem? (cs : List Container) (base : Nat) {i : Nat}
    (h : i < cs.length) :
    (offsetsList cs base)[i]? = some (base + ((cs.take i).map Container.emitSize).sum) := by
  rw [offsetsList, List.getElem?_map]
  simp [List.getElem?_range, h]

theorem offsetsList_base_le {cs : List Container} {base : Nat} :
    ∀ x ∈ offsetsList cs base, base ≤ x := by
  intro x hx
  rw [offsetsList] at hx
  rcases List.mem_map.1 hx with ⟨i, -, hix⟩
  omega

theorem offsetsList_pairwise : ∀ (cs : List Container) (base : Nat),
    (∀ c ∈ cs, 0 < c.emitSize) → (offsetsList cs base).Pairwise (· < ·) := by
  intro cs
  induction cs with
  | nil =>
    intro base _
    rw [offsetsList_nil]
    exact List.Pairwise.nil
  | cons c t ih =>
    intro base h
    rw [offsetsList_cons]
    refine List.pairwise_cons.2 ⟨?_, ih _ (fun d hd => h d (List.mem_cons_of_mem _ hd))⟩
    intro x hx
    have h1 := offsetsList_base_le x hx
    have h2 := h c (List.mem_cons_self _ _)
    omega

/-- The byte list `write_to` hands to the writer has exactly the returned
length. -/
theorem writeTo_length {sc : SliceContainers} (h : ∀ kc ∈ sc.keyContainers, kc.2.validType)
    (opt : Bool) {bs : List Nat} {ret : Nat} (heq : sc.writeTo opt = some (bs, ret)) :
    bs.length = ret := by
  rw [writeTo_eq h opt] at heq
  injection heq with heq
  rw [Prod.mk.injEq] at heq
  obtain ⟨hb, hr⟩ := heq
  rw [← hb, ← hr]
  rw [List.length_append, List.length_append, List.length_append, List.length_append,
    length_u32le, length_u32le]
  rw [flatMap_const_length
    (fun kc : Nat × Container => u64le kc.1
      ++ u16le ((if opt then kc.2.optimizedD else kc.2).type) ++ u16le (kc.2.n - 1))
    12 (fun kc => rfl)]
  rw [flatMap_const_length u32le 4 length_u32le, offsetsList_length, List.length_map]
  rw [List.length_flatMap]
  have hps : (((sc.keyContainers.filter (fun kc => kc.2.n > 0)).map
      (fun kc => if opt then kc.2.optimizedD else kc.2)).map
        (List.length ∘ Container.payload)).sum =
      (((sc.keyContainers.filter (fun kc => kc.2.n > 0)).map
        (fun kc => if opt then kc.2.optimizedD else kc.2)).map Container.emitSize).sum := rfl
  rw [hps, show HEADER_BASE_SIZE = 8 from rfl]
  omega

theorem mem_storeOf {ks : List Nat} {g : Nat → Container} {k : Nat} {c : Container} :
    (k, c) ∈ storeOf ks g ↔ k ∈ ks ∧ c = g k := by
  rw [storeOf]
  constructor
  · intro h
    rcases List.mem_map.1 h with ⟨a, ha, heq⟩
    rw [Prod.mk.injEq] at heq
    obtain ⟨rfl, hc⟩ := heq
    exact ⟨ha, hc.symm⟩
  · rintro ⟨hk, rfl⟩
    exact List.mem_map.2 ⟨k, hk, rfl⟩

theorem canonStore_valid (xs : List Nat) : ∀ kc ∈ canonStore xs, kc.2.validType := by
  intro kc hkc
  obtain ⟨k, c⟩ := kc
  rw [canonStore_def, mem_storeOf] at hkc
  rw [hkc.2]
  exact validType_canonC _

theorem emitSize_canonC_pos {L : List Nat} (h : L ≠ []) : 0 < (canonC L).emitSize := by
  rw [canonC]
  split
  · rw [emitSize_array rfl]
    have := List.length_pos.2 h
    show 0 < 2 * L.length
    omega
  · rw [emitSize_bitmap rfl]
    show 0 < 8 * (wordsOf L).length
    rw [length_wordsOf]
    decide

theorem emitSize_rleC_pos (L : List Nat) : 0 < (rleC L).emitSize := by
  rw [emitSize_rle rfl]
  omega

theorem emitSize_optimizedD_canonC_pos {L : List Nat} (hs : L.Pairwise (· < ·))
    (hb : ∀ v ∈ L, v < 65536) (h : L ≠ []) : 0 < ((canonC L).optimizedD).emitSize := by
  rw [optimizedD_canonC hs hb]
  split
  · exact emitSize_rleC_pos L
  · exact emitSize_canonC_pos h

theorem length_insertSorted_le (x : Nat) : ∀ l : List Nat,
    (insertSorted x l).length ≤ l.length + 1 := by
  intro l
  induction l with
  | nil => simp [insertSorted]
  | cons a t ih =>
    rw [insertSorted]
    split
    · simp
    · split
      · simp
      · simp only [List.length_cons]
        omega

theorem length_sortIns_le (xs : List Nat) : (sortIns xs).length ≤ xs.length := by
  suffices h : ∀ acc : List Nat,
      (xs.foldl (fun acc x => insertSorted x acc) acc).length ≤ acc.length + xs.length by
    have := h []
    simpa [sortIns] using this
  induction xs with
  | nil => intro acc; simp
  | cons a t ih =>
    intro acc
    rw [List.foldl_cons]
    have h1 := ih (insertSorted a acc)
    have h2 := length_insertSorted_le a acc
    rw [List.length_cons]
    omega

theorem canonStore_length_le (xs : List Nat) : (canonStore xs).length ≤ xs.length := by
  rw [canonStore_def, storeOf, List.length_map]
  have h1 := length_sortIns_le (xs.map keyOf)
  rw [List.length_map] at h1
  exact h1

theorem length_le_of_pairwise_lt_bounded {l : List Nat} {m : Nat}
    (hs : l.Pairwise (· < ·)) (hb : ∀ a ∈ l, a < m) : l.length ≤ m := by
  have hn := pairwise_lt_nodup hs
  have hsub : l ⊆ List.range m := fun a ha => List.mem_range.2 (hb a ha)
  have := (hn.subperm hsub).length_le
  simpa using this

theorem lowsOf_congr {xs ys : List Nat} (h : ∀ a, a ∈ xs ↔ a ∈ ys) (k : Nat) :
    lowsOf xs k = lowsOf ys k := by
  rw [lowsOf, lowsOf]
  apply sortIns_congr
  intro a
  constructor
  · intro ha
    rcases List.mem_map.1 ha with ⟨v, hv, hva⟩
    have h2 := List.mem_filter.1 hv
    exact List.mem_map.2 ⟨v, List.mem_filter.2 ⟨(h v).1 h2.1, h2.2⟩, hva⟩
  · intro ha
    rcases List.mem_map.1 ha with ⟨v, hv, hva⟩
    have h2 := List.mem_filter.1 hv
    exact List.mem_map.2 ⟨v, List.mem_filter.2 ⟨(h v).2 h2.1, h2.2⟩, hva⟩

theorem canonStore_congr {xs ys : List Nat} (h : ∀ a, a ∈ xs ↔ a ∈ ys) :
    canonStore xs = canonStore ys := by
  rw [canonStore_def, canonStore_def, storeOf, storeOf]
  have hk : sortIns (xs.map keyOf) = sortIns (ys.map keyOf) := by
    apply sortIns_congr
    intro a
    constructor
    · intro ha
      rcases List.mem_map.1 ha with ⟨v, hv, hva⟩
      exact List.mem_map.2 ⟨v, (h v).1 hv, hva⟩
    · intro ha
      rcases List.mem_map.1 ha with ⟨v, hv, hva⟩
      exact List.mem_map.2 ⟨v, (h v).2 hv, hva⟩
  rw [hk]
  apply List.map_congr_left
  intro k _
  rw [lowsOf_congr h]

theorem writeTo_congr {sc1 sc2 : SliceContainers} (h : sc1.keyContainers = sc2.keyContainers)
    (opt : Bool) : sc1.writeTo opt = sc2.writeTo opt := by
  simp only [SliceContainers.writeTo, h]

theorem iterate_congr {sc1 sc2 : SliceContainers} (h : sc1.keyContainers = sc2.keyContainers) :
    sc1.iterate = sc2.iterate := by
  rw [SliceContainers.iterate, SliceContainers.iterate, h]

theorem buildB_append_one (xs : List Nat) (v : Nat) :
    buildB (xs ++ [v]) = (buildB xs).add v := by
  rw [buildB, List.foldl_append, List.foldl_cons, List.foldl_nil]
  rfl


/-! ### The reference sample, computed symbolically -/

theorem countP_lt_range : ∀ (n m : Nat), m ≤ n →
    (List.range n).countP (fun w => decide (w < m)) = m := by
  intro n
  induction n with
  | zero =>
    intro m hm
    have h0 : m = 0 := by omega
    subst h0
    rfl
  | succ k ih =>
    intro m hm
    rw [List.range_succ, List.countP_append]
    by_cases hmk : m ≤ k
    · rw [ih m hmk]
      have h2 : ¬ (k < m) := by omega
      simp [h2]
    · have hm2 : m = k + 1 := by omega
      subst hm2
      have h3 : (List.range k).countP (fun w => decide (w < k + 1)) = (List.range k).length :=
        List.countP_eq_length.2 (fun a ha => by
          have := List.mem_range.1 ha
          simp
          omega)
      rw [h3, List.length_range]
      simp

theorem nonzero_words_range :
    ((wordsOf (List.range 4096)).filter (fun x => x != 0)).length = 64 := by
  rw [wordsOf, ← List.countP_eq_length_filter, List.countP_map]
  have hcongr : ∀ w ∈ List.range BITMAP_N,
      ((fun x => x != 0) ∘ wordOf (List.range 4096)) w = decide (w < 64) := by
    intro w hw
    by_cases h : w < 64
    · have hnz : wordOf (List.range 4096) w ≠ 0 := by
        intro h0
        exact (wordOf_eq_zero_iff.1 h0) 0 (by omega) (List.mem_range.2 (by omega))
      simp [Function.comp, hnz, h]
    · have hz : wordOf (List.range 4096) w = 0 := by
        rw [wordOf_eq_zero_iff]
        intro j hj hmem
        have := List.mem_range.1 hmem
        omega
      simp [Function.comp, hz, h]
  rw [List.countP_congr (fun w hw => by rw [hcongr w hw])]
  rw [(by decide : BITMAP_N = 1024)]
  exact countP_lt_range 1024 64 (by omega)

theorem sample_keys : sortIns (sampleList.map keyOf) = [0, 65536, 2 ^ 48 - 1] := by
  have hmem : ∀ a, a ∈ sampleList.map keyOf ↔ a ∈ [0, 65536, 2 ^ 48 - 1] := by
    intro a
    constructor
    · intro h
      rcases List.mem_map.1 h with ⟨v, hv, hva⟩
      rw [sampleList] at hv
      rcases List.mem_append.1 hv with hv | hv
      · rcases List.mem_append.1 hv with hv | hv
        · have hlt : v < 4096 := List.mem_range.1 hv
          have hk : keyOf v = 0 := by rw [keyOf_eq_div]; omega
          rw [← hva, hk]
          simp
        · rcases List.mem_map.1 hv with ⟨k, hk, hkv⟩
          have hklt : k < 4097 := List.mem_range.1 hk
          have hk2 : keyOf v = 65536 := by rw [keyOf_eq_div, ← hkv]; omega
          rw [← hva, hk2]
          simp
      · have hv2 : v = 2 ^ 64 - 1 := by simpa using hv
        have hk : keyOf v = 2 ^ 48 - 1 := by
          subst hv2
          decide
        rw [← hva, hk]
        simp
    · intro h
      simp only [List.mem_cons, List.not_mem_nil, or_false] at h
      rcases h with rfl | rfl | rfl
      · refine List.mem_map.2 ⟨0, ?_, by decide⟩
        rw [sampleList]
        exact List.mem_append.2 (Or.inl (List.mem_append.2
          (Or.inl (List.mem_range.2 (by norm_num)))))
      · refine List.mem_map.2 ⟨2 ^ 32, ?_, by decide⟩
        rw [sampleList]
        refine List.mem_append.2 (Or.inl (List.mem_append.2 (Or.inr ?_)))
        exact List.mem_map.2 ⟨0, List.mem_range.2 (by norm_num), by norm_num⟩
      · refine List.mem_map.2 ⟨2 ^ 64 - 1, ?_, by decide⟩
        rw [sampleList]
        exact List.mem_append.2 (Or.inr (by simp))
  rw [sortIns_congr hmem]
  exact sortIns_eq_self (by decide)

theorem sample_lows0 : lowsOf sampleList 0 = List.range 4096 := by
  rw [lowsOf, sampleList, List.filter_append, List.filter_append]
  have h1 : (List.range 4096).filter (fun v => keyOf v == 0) = List.range 4096 := by
    apply List.filter_eq_self.2
    intro a ha
    have hlt : a < 4096 := List.mem_range.1 ha
    have hk : keyOf a = 0 := by rw [keyOf_eq_div]; omega
    simp [hk]
  have h2 : ((List.range 4097).map (fun k => 2 ^ 32 + 2 * k)).filter
      (fun v => keyOf v == 0) = [] := by
    rw [List.filter_eq_nil_iff]
    intro a ha
    rcases List.mem_map.1 ha with ⟨k, hk, hka⟩
    have hklt : k < 4097 := List.mem_range.1 hk
    have hk2 : keyOf a = 65536 := by rw [keyOf_eq_div, ← hka]; omega
    simp [hk2]
  have h3 : ([2 ^ 64 - 1] : List Nat).filter (fun v => keyOf v == 0) = [] := by
    rw [List.filter_eq_nil_iff]
    intro a ha
    have ha2 : a = 2 ^ 64 - 1 := by simpa using ha
    subst ha2
    decide
  rw [h1, h2, h3, List.append_nil, List.append_nil]
  have h4 : (List.range 4096).map lowOf = List.range 4096 := by
    have h5 : (List.range 4096).map lowOf = (List.range 4096).map (fun a => a) := by
      apply List.map_congr_left
      intro a ha
      have hlt : a < 4096 := List.mem_range.1 ha
      rw [lowOf_eq_mod]
      omega
    rw [h5]
    simp
  rw [h4]
  exact sortIns_eq_self (List.pairwise_lt_range _)

theorem sample_lows1 : lowsOf sampleList 65536 = (List.range 4097).map (fun k => 2 * k) := by
  rw [lowsOf, sampleList, List.filter_append, List.filter_append]
  have h1 : (List.range 4096).filter (fun v => keyOf v == 65536) = [] := by
    rw [List.filter_eq_nil_iff]
    intro a ha
    have hlt : a < 4096 := List.mem_range.1 ha
    have hk : keyOf a = 0 := by rw [keyOf_eq_div]; omega
    simp [hk]
  have h2 : ((List.range 4097).map (fun k => 2 ^ 32 + 2 * k)).filter
      (fun v => keyOf v == 65536) = (List.range 4097).map (fun k => 2 ^ 32 + 2 * k) := by
    apply List.filter_eq_self.2
    intro a ha
    rcases List.mem_map.1 ha with ⟨k, hk, hka⟩
    have hklt : k < 4097 := List.mem_range.1 hk
    have hk2 : keyOf a = 65536 := by rw [keyOf_eq_div, ← hka]; omega
    simp [hk2]
  have h3 : ([2 ^ 64 - 1] : List Nat).filter (fun v => keyOf v == 65536) = [] := by
    rw [List.filter_eq_nil_iff]
    intro a ha
    have ha2 : a = 2 ^ 64 - 1 := by simpa using ha
    subst ha2
    decide
  rw [h1, h2, h3, List.nil_append, List.append_nil]
  have h4 : ((List.range 4097).map (fun k => 2 ^ 32 + 2 * k)).map lowOf
      = (List.range 4097).map (fun k => 2 * k) := by
    rw [List.map_map]
    apply List.map_congr_left
    intro k hk
    have hklt : k < 4097 := List.mem_range.1 hk
    show lowOf (2 ^ 32 + 2 * k) = 2 * k
    rw [lowOf_eq_mod]
    omega
  rw [h4]
  apply sortIns_eq_self
  rw [List.pairwise_map]
  exact (List.pairwise_lt_range _).imp (fun hab => by omega)

theorem sample_lows2 : lowsOf sampleList (2 ^ 48 - 1) = [65535] := by
  rw [lowsOf, sampleList, List.filter_append, List.filter_append]
  have h1 : (List.range 4096).filter (fun v => keyOf v == 2 ^ 48 - 1) = [] := by
    rw [List.filter_eq_nil_iff]
    intro a ha
    have hlt : a < 4096 := List.mem_range.1 ha
    have hk : keyOf a = 0 := by rw [keyOf_eq_div]; omega
    simp only [hk]
    decide
  have h2 : ((List.range 4097).map (fun k => 2 ^ 32 + 2 * k)).filter
      (fun v => keyOf v == 2 ^ 48 - 1) = [] := by
    rw [List.filter_eq_nil_iff]
    intro a ha
    rcases List.mem_map.1 ha with ⟨k, hk, hka⟩
    have hklt : k < 4097 := List.mem_range.1 hk
    have hk2 : keyOf a = 65536 := by rw [keyOf_eq_div, ← hka]; omega
    simp only [hk2]
    decide
  have h3 : ([2 ^ 64 - 1] : List Nat).filter (fun v => keyOf v == 2 ^ 48 - 1)
      = [2 ^ 64 - 1] := by
    apply List.filter_eq_self.2
    intro a ha
    have ha2 : a = 2 ^ 64 - 1 := by simpa using ha
    subst ha2
    decide
  rw [h1, h2, h3, List.nil_append, List.nil_append]
  rw [List.map_cons, List.map_nil, (by decide : lowOf (2 ^ 64 - 1) = 65535)]
  exact sortIns_eq_self (by decide)

/-! ### The three sample containers in record form -/

theorem canonC_range_eq : canonC (List.range 4096)
    = ⟨[], wordsOf (List.range 4096), [], Container.TYPE_BITMAP, 4096⟩ := by
  have hcond : ¬ ((List.range 4096).length ≤ ARRAY_MAX_SIZE - 1) := by
    rw [List.length_range]
    decide
  rw [canonC, if_neg hcond, List.length_range]

theorem canonC_evens_eq : canonC ((List.range 4097).map (fun k => 2 * k))
    = ⟨[], wordsOf ((List.range 4097).map (fun k => 2 * k)), [],
        Container.TYPE_BITMAP, 4097⟩ := by
  have hcond : ¬ (((List.range 4097).map (fun k => 2 * k)).length ≤ ARRAY_MAX_SIZE - 1) := by
    rw [List.length_map, List.length_range]
    decide
  rw [canonC, if_neg hcond, List.length_map, List.length_range]

theorem canonC_single_eq : canonC [65535] = ⟨[65535], [], [], Container.TYPE_ARRAY, 1⟩ := by
  decide

theorem costCanon_range : costCanon (List.range 4096) = 512 := by
  have hcond : ¬ ((List.range 4096).length ≤ ARRAY_MAX_SIZE - 1) := by
    rw [List.length_range]
    decide
  rw [costCanon, if_neg hcond, nonzero_words_range]

theorem range_optimizedD : (canonC (List.range 4096)).optimizedD = rleC (List.range 4096) := by
  rw [optimizedD_canonC (List.pairwise_lt_range _) (fun v hv => by
      have := List.mem_range.1 hv
      omega), to_runs_range (by norm_num), costCanon_range]
  split
  · rfl
  · rename_i hcond
    exact absurd ⟨by decide, by decide⟩ hcond

theorem evens_pairwise : ((List.range 4097).map (fun k => 2 * k)).Pairwise (· < ·) := by
  rw [List.pairwise_map]
  exact (List.pairwise_lt_range _).imp (fun hab => by omega)

theorem evens_bounded : ∀ v ∈ (List.range 4097).map (fun k => 2 * k), v < 65536 := by
  intro v hv
  rcases List.mem_map.1 hv with ⟨k, hk, hkv⟩
  have := List.mem_range.1 hk
  omega

theorem evens_runs_length :
    (to_runs ((List.range 4097).map (fun k => 2 * k))).length = 4097 := by
  have hgap : ((List.range 4097).map (fun k => 2 * k)).Pairwise (fun a b => a + 1 < b) := by
    rw [List.pairwise_map]
    exact (List.pairwise_lt_range _).imp (fun hab => by omega)
  rw [to_runs_gaps hgap, List.length_map, List.length_map, List.length_range]

theorem evens_optimizedD : (canonC ((List.range 4097).map (fun k => 2 * k))).optimizedD
    = canonC ((List.range 4097).map (fun k => 2 * k)) := by
  rw [optimizedD_canonC evens_pairwise evens_bounded]
  split
  · rename_i hcond
    rw [evens_runs_length] at hcond
    exact absurd hcond.1 (by decide)
  · rfl

theorem single_optimizedD : (canonC [65535]).optimizedD = canonC [65535] := by
  rw [optimizedD_canonC (by decide) (by decide)]
  split
  · rename_i hcond
    exact absurd hcond.2 (by decide)
  · rfl

theorem sample0_optD :
    (⟨[], wordsOf (List.range 4096), [], Container.TYPE_BITMAP, 4096⟩ : Container).optimizedD
      = rleC (List.range 4096) := by
  rw [← canonC_range_eq]
  exact range_optimizedD

theorem sample0_rle_emit : (rleC (List.range 4096)).emitSize = 6 := by
  rw [emitSize_rle rfl]
  dsimp only [rleC]
  rw [to_runs_range (by norm_num)]
  decide

theorem sample0_emit :
    (⟨[], wordsOf (List.range 4096), [], Container.TYPE_BITMAP, 4096⟩ : Container).emitSize
      = 8192 := by
  rw [emitSize_bitmap rfl]
  dsimp only
  rw [length_wordsOf]
  decide

theorem sample1_optD :
    (⟨[], wordsOf ((List.range 4097).map (fun k => 2 * k)), [],
        Container.TYPE_BITMAP, 4097⟩ : Container).optimizedD
      = ⟨[], wordsOf ((List.range 4097).map (fun k => 2 * k)), [],
          Container.TYPE_BITMAP, 4097⟩ := by
  rw [← canonC_evens_eq, evens_optimizedD]

theorem sample1_emit :
    (⟨[], wordsOf ((List.range 4097).map (fun k => 2 * k)), [],
        Container.TYPE_BITMAP, 4097⟩ : Container).emitSize = 8192 := by
  rw [emitSize_bitmap rfl]
  dsimp only
  rw [length_wordsOf]
  decide

theorem sample2_optD :
    (⟨[65535], [], [], Container.TYPE_ARRAY, 1⟩ : Container).optimizedD
      = ⟨[65535], [], [], Container.TYPE_ARRAY, 1⟩ := by
  rw [← canonC_single_eq, single_optimizedD]

theorem sample2_emit :
    (⟨[65535], [], [], Container.TYPE_ARRAY, 1⟩ : Container).emitSize = 2 := by
  decide

/-! ### The sample store and its emitted stream -/

theorem canonStore_sample : canonStore sampleList = sampleStore := by
  rw [canonStore_def, sample_keys, sampleStore, storeOf]
  simp only [List.map_cons, List.map_nil]
  rw [sample_lows0, sample_lows1, sample_lows2]
  rw [canonC_range_eq, canonC_evens_eq, canonC_single_eq]

theorem sampleStore_valid : ∀ kc ∈ sampleStore, kc.2.validType := by
  intro kc hkc
  rw [sampleStore] at hkc
  simp only [List.mem_cons, List.not_mem_nil, or_false] at hkc
  rcases hkc with rfl | rfl | rfl
  · exact Or.inr (Or.inl rfl)
  · exact Or.inr (Or.inl rfl)
  · exact Or.inl rfl

theorem sampleStore_filter : sampleStore.filter (fun kc => kc.2.n > 0) = sampleStore := by
  apply List.filter_eq_self.2
  intro kc hkc
  rw [sampleStore] at hkc
  simp only [List.mem_cons, List.not_mem_nil, or_false] at hkc
  rcases hkc with rfl | rfl | rfl
  · decide
  · decide
  · decide

theorem sample_store_eq : (buildB sampleList).containers.keyContainers = sampleStore := by
  rw [(buildB_canonical sampleList).1, canonStore_sample]

theorem sample_map_true : sampleStore.map
    (fun kc => if true = true then kc.2.optimizedD else kc.2)
    = [rleC (List.range 4096),
       ⟨[], wordsOf ((List.range 4097).map (fun k => 2 * k)), [],
         Container.TYPE_BITMAP, 4097⟩,
       ⟨[65535], [], [], Container.TYPE_ARRAY, 1⟩] := by
  have h1 : sampleStore.map (fun kc => if true = true then kc.2.optimizedD else kc.2)
      = [(⟨[], wordsOf (List.range 4096), [], Container.TYPE_BITMAP, 4096⟩ : Container).optimizedD,
         (⟨[], wordsOf ((List.range 4097).map (fun k => 2 * k)), [],
            Container.TYPE_BITMAP, 4097⟩ : Container).optimizedD,
         (⟨[65535], [], [], Container.TYPE_ARRAY, 1⟩ : Container).optimizedD] := rfl
  rw [h1, sample0_optD, sample1_optD, sample2_optD]

theorem sample_map_false : sampleStore.map
    (fun kc => if false = true then kc.2.optimizedD else kc.2)
    = [⟨[], wordsOf (List.range 4096), [], Container.TYPE_BITMAP, 4096⟩,
       ⟨[], wordsOf ((List.range 4097).map (fun k => 2 * k)), [],
         Container.TYPE_BITMAP, 4097⟩,
       ⟨[65535], [], [], Container.TYPE_ARRAY, 1⟩] := rfl

theorem sample_ret_true :
    HEADER_BASE_SIZE + sampleStore.length * 16 +
      ((sampleStore.map (fun kc => if true = true then kc.2.optimizedD else kc.2)).map
        Container.emitSize).sum = 8256 := by
  rw [sample_map_true, List.map_cons, List.map_cons, List.map_cons, List.map_nil,
    List.sum_cons, List.sum_cons, List.sum_cons, List.sum_nil,
    sample0_rle_emit, sample1_emit, sample2_emit,
    show sampleStore.length = 3 from rfl, show HEADER_BASE_SIZE = 8 from rfl]
  decide

theorem sample_ret_false :
    HEADER_BASE_SIZE + sampleStore.length * 16 +
      ((sampleStore.map (fun kc => if false = true then kc.2.optimizedD else kc.2)).map
        Container.emitSize).sum = 16442 := by
  rw [sample_map_false, List.map_cons, List.map_cons, List.map_cons, List.map_nil,
    List.sum_cons, List.sum_cons, List.sum_cons, List.sum_nil,
    sample0_emit, sample1_emit, sample2_emit,
    show sampleStore.length = 3 from rfl, show HEADER_BASE_SIZE = 8 from rfl]
  decide

theorem sample_writeTo_true :
    ∃ bs, (buildB sampleList).writeTo true = some (bs, 8256) ∧ bs.length = 8256 := by
  have hval : ∀ kc ∈ (buildB sampleList).containers.keyContainers, kc.2.validType := by
    rw [sample_store_eq]
    exact sampleStore_valid
  have h1 := writeTo_eq hval true
  rw [sample_store_eq, sampleStore_filter] at h1
  rw [sample_ret_true] at h1
  exact ⟨_, h1, writeTo_length hval true h1⟩

theorem sample_writeTo_false :
    ∃ bs, (buildB sampleList).writeTo false = some (bs, 16442) ∧ bs.length = 16442 := by
  have hval : ∀ kc ∈ (buildB sampleList).containers.keyContainers, kc.2.validType := by
    rw [sample_store_eq]
    exact sampleStore_valid
  have h1 := writeTo_eq hval false
  rw [sample_store_eq, sampleStore_filter] at h1
  rw [sample_ret_false] at h1
  exact ⟨_, h1, writeTo_length hval false h1⟩

/-! ### The spread sample: 1024 runs kept as a bitmap -/

theorem spreadL_length : spreadL.length = 4096 := by
  rw [spreadL, flatMap_const_length (fun i => List.range' (64 * i) 4) 4
    (fun i => List.length_range' ..), List.length_range]

theorem spreadL_bounded : ∀ v ∈ spreadL, v < 65536 := by
  intro v hv
  rw [spreadL] at hv
  rcases List.mem_flatMap.1 hv with ⟨i, hi, hvi⟩
  have h1 : i < 1024 := List.mem_range.1 hi
  have h2 := List.mem_range'_1.1 hvi
  omega

theorem spreadL_pairwise : spreadL.Pairwise (· < ·) := by
  rw [spreadL, List.pairwise_flatMap]
  constructor
  · intro i hi
    exact List.pairwise_lt_range' _ _
  · refine (List.pairwise_lt_range _).imp ?_
    intro a b hab
    intro x hx y hy
    have h1 := List.mem_range'_1.1 hx
    have h2 := List.mem_range'_1.1 hy
    omega

theorem wordsOf_spreadL_nonzero : ∀ a ∈ wordsOf spreadL, a ≠ 0 := by
  intro a ha
  rw [wordsOf] at ha
  rcases List.mem_map.1 ha with ⟨w, hw, hwa⟩
  have hwlt : w < BITMAP_N := List.mem_range.1 hw
  have hb : BITMAP_N = 1024 := by decide
  rw [hb] at hwlt
  rw [← hwa]
  intro h0
  refine (wordOf_eq_zero_iff.1 h0) 0 (by omega) ?_
  rw [spreadL]
  refine List.mem_flatMap.2 ⟨w, List.mem_range.2 (by omega), ?_⟩
  refine List.mem_range'_1.2 ?_
  omega

theorem nonzero_words_spreadL :
    ((wordsOf spreadL).filter (fun x => x != 0)).length = 1024 := by
  have hself : (wordsOf spreadL).filter (fun x => x != 0) = wordsOf spreadL := by
    apply List.filter_eq_self.2
    intro a ha
    have := wordsOf_spreadL_nonzero a ha
    simp [this]
  rw [hself, length_wordsOf]
  decide

theorem to_runs_spreadL :
    to_runs spreadL = (List.range 1024).map (fun i => (64 * i, 64 * i + 3)) := by
  have hL : spreadL = ((List.range 1024).map (fun i => ((64 * i, 4) : Nat × Nat))).flatMap
      (fun p => List.range' p.1 p.2) := by
    rw [spreadL, List.flatMap_map]
  have h1 : ∀ p ∈ (List.range 1024).map (fun i => ((64 * i, 4) : Nat × Nat)), 1 ≤ p.2 := by
    intro p hp
    rcases List.mem_map.1 hp with ⟨i, -, hip⟩
    rw [← hip]
    show 1 ≤ (64 * i, 4).2
    dsimp only
    omega
  have hsep : List.Pairwise (fun p q : Nat × Nat => p.1 + p.2 < q.1)
      ((List.range 1024).map (fun i => ((64 * i, 4) : Nat × Nat))) := by
    rw [List.pairwise_map]
    refine (List.pairwise_lt_range _).imp ?_
    intro a b hab
    show (64 * a, 4).1 + (64 * a, 4).2 < (64 * b, 4).1
    dsimp only
    omega
  rw [hL, to_runs_blocks h1 hsep, List.map_map]
  apply List.map_congr_left
  intro i _
  show (64 * i, 64 * i + 4 - 1) = (64 * i, 64 * i + 3)
  norm_num

theorem spreadL_runs_length : (to_runs spreadL).length = 1024 := by
  rw [to_runs_spreadL, List.length_map, List.length_range]

theorem costCanon_spreadL : costCanon spreadL = 8192 := by
  have hcond : ¬ (spreadL.length ≤ ARRAY_MAX_SIZE - 1) := by
    rw [spreadL_length]
    decide
  rw [costCanon, if_neg hcond, nonzero_words_spreadL]

theorem canonC_spreadL_eq : canonC spreadL
    = ⟨[], wordsOf spreadL, [], Container.TYPE_BITMAP, 4096⟩ := by
  have hcond : ¬ (spreadL.length ≤ ARRAY_MAX_SIZE - 1) := by
    rw [spreadL_length]
    decide
  rw [canonC, if_neg hcond, spreadL_length]

theorem spreadL_optimizedD : (canonC spreadL).optimizedD = canonC spreadL := by
  rw [optimizedD_canonC spreadL_pairwise spreadL_bounded]
  split
  · rename_i hcond
    rw [spreadL_runs_length, costCanon_spreadL] at hcond
    exact absurd hcond.2 (by decide)
  · rfl

theorem spreadR_optimizedD : (⟨[], wordsOf spreadL, [], Container.TYPE_BITMAP,
    4096⟩ : Container).optimizedD = ⟨[], wordsOf spreadL, [], Container.TYPE_BITMAP, 4096⟩ := by
  rw [← canonC_spreadL_eq, spreadL_optimizedD]

theorem spreadR_emit : (⟨[], wordsOf spreadL, [], Container.TYPE_BITMAP,
    4096⟩ : Container).emitSize = 8192 := by
  rw [emitSize_bitmap rfl]
  dsimp only
  rw [length_wordsOf]
  decide

theorem spreadL_rle_emit : (rleC spreadL).emitSize = 4098 := by
  rw [emitSize_rle rfl]
  dsimp only [rleC]
  rw [spreadL_runs_length]

theorem canonStore_spreadL : canonStore spreadL
    = [(0, ⟨[], wordsOf spreadL, [], Container.TYPE_BITMAP, 4096⟩)] := by
  rw [canonStore_def]
  have hkeys : sortIns (spreadL.map keyOf) = [0] := by
    have hmem : ∀ a, a ∈ spreadL.map keyOf ↔ a ∈ [0] := by
      intro a
      constructor
      · intro h
        rcases List.mem_map.1 h with ⟨v, hv, hva⟩
        have := spreadL_bounded v hv
        have hk : keyOf v = 0 := by rw [keyOf_eq_div]; omega
        rw [← hva, hk]
        simp
      · intro h
        have ha : a = 0 := by simpa using h
        subst ha
        refine List.mem_map.2 ⟨0, ?_, by decide⟩
        rw [spreadL]
        refine List.mem_flatMap.2 ⟨0, List.mem_range.2 (by norm_num), ?_⟩
        refine List.mem_range'_1.2 ?_
        omega
    rw [sortIns_congr hmem]
    exact sortIns_eq_self (by simp)
  rw [hkeys, storeOf]
  simp only [List.map_cons, List.map_nil]
  have hlows : lowsOf spreadL 0 = spreadL := by
    rw [lowsOf]
    have hf : spreadL.filter (fun v => keyOf v == 0) = spreadL := by
      apply List.filter_eq_self.2
      intro a ha
      have := spreadL_bounded a ha
      have hk : keyOf a = 0 := by rw [keyOf_eq_div]; omega
      simp [hk]
    rw [hf]
    have hm : spreadL.map lowOf = spreadL := by
      have h5 : spreadL.map lowOf = spreadL.map (fun a => a) := by
        apply List.map_congr_left
        intro a ha
        have := spreadL_bounded a ha
        rw [lowOf_eq_mod]
        omega
      rw [h5]
      simp
    rw [hm]
    exact sortIns_eq_self spreadL_pairwise
  rw [hlows, canonC_spreadL_eq]

theorem spreadL_store : (buildB spreadL).containers.keyContainers
    = [(0, ⟨[], wordsOf spreadL, [], Container.TYPE_BITMAP, 4096⟩)] := by
  rw [(buildB_canonical spreadL).1, canonStore_spreadL]

/-! ### Generic header-slicing lemmas -/

theorem take4_append {A R : List Nat} (hA : A.length = 4) : (A ++ R).take 4 = A := by
  rw [← hA]
  exact List.take_left A R

theorem drop4_append {A R : List Nat} (hA : A.length = 4) : (A ++ R).drop 4 = R := by
  rw [← hA]
  exact List.drop_left A R

/-! ### The claims -/

/-- Claim C1 (corrected).  At emit time `_optimized` does not choose the
cheapest of the spec's payload costs `2n` / `8192` / `2+4r`: on every
reachable container it keeps the current encoding unless the runs fit
(`r ≤ RUN_MAX_SIZE`) and the `SERIALIZATION_COST_MAP` value `16r + 2` is
strictly below the current encoding's map value (`8n` for an array,
`8·(number of nonzero words)` for a bitmap).  Consequently minimality fails:
the spread sample is kept as a bitmap with an 8192-byte payload although a
legal RLE encoding (1024 runs) would take 4098 bytes. -/
theorem C1_emit_choice :
    (∀ (xs : List Nat) (k : Nat) (c : Container),
      (k, c) ∈ (buildB xs).containers.keyContainers →
      c.optimizedD = if (to_runs (lowsOf xs k)).length ≤ RUN_MAX_SIZE ∧
          16 * (to_runs (lowsOf xs k)).length + 2 < costCanon (lowsOf xs k)
        then rleC (lowsOf xs k) else canonC (lowsOf xs k)) ∧
    ((buildB spreadL).containers.keyContainers
        = [(0, ⟨[], wordsOf spreadL, [], Container.TYPE_BITMAP, 4096⟩)] ∧
      (⟨[], wordsOf spreadL, [], Container.TYPE_BITMAP, 4096⟩ : Container).optimizedD.type
        = Container.TYPE_BITMAP ∧
      (⟨[], wordsOf spreadL, [], Container.TYPE_BITMAP, 4096⟩ : Container).optimizedD.emitSize
        = 8192 ∧
      (to_runs spreadL).length ≤ RUN_MAX_SIZE ∧
      (rleC spreadL).emitSize = 4098) := by
  constructor
  · intro xs k c hmem
    have hst := (buildB_canonical xs).1
    rw [hst, canonStore_def, mem_storeOf] at hmem
    rw [hmem.2]
    exact optimizedD_canonC (lowsOf_pairwise xs k) (lowsOf_bounded xs k)
  · refine ⟨spreadL_store, ?_, ?_, ?_, spreadL_rle_emit⟩
    · rw [spreadR_optimizedD]
    · rw [spreadR_optimizedD, spreadR_emit]
    · rw [spreadL_runs_length]
      decide

/-- Claim C1, concrete counterexample to the spec's tie-break.  For the
container `{0,1,2}` (`n = 3`, one run): the spec's rule gives a tie
`arr_cost = 2+4r = 6` broken toward Array, but the code compares the map
values `8n = 24 > 16r+2 = 18` and emits the container as RLE (type 3): the
type field of the emitted meta record (byte 16 of the stream) is 3. -/
theorem C1_counterexample :
    (buildB [0, 1, 2]).containers.keyContainers = [(0, buildC [0, 1, 2])] ∧
    (buildC [0, 1, 2]).n = 3 ∧
    to_runs ((buildC [0, 1, 2]).iterate) = [(0, 2)] ∧
    specChosenType 3 1 = Container.TYPE_ARRAY ∧
    (buildC [0, 1, 2]).optimizedD.type = Container.TYPE_RLE ∧
    ((buildB [0, 1, 2]).writeTo true).map (fun r => r.1.getD 16 0)
      = some Container.TYPE_RLE ∧
    Container.TYPE_RLE ≠ Container.TYPE_ARRAY := by decide

/-- Claim C2 (corrected).  The reference sample emits exactly 8256 bytes with
optimization enabled, but 16442 bytes (not 8274) with optimization disabled;
in both cases `write_to` returns the emitted byte count. -/
theorem C2_sample_byte_counts :
    (∃ bs, (buildB sampleList).writeTo true = some (bs, 8256) ∧ bs.length = 8256) ∧
    (∃ bs, (buildB sampleList).writeTo false = some (bs, 16442) ∧ bs.length = 16442) :=
  ⟨sample_writeTo_true, sample_writeTo_false⟩

/-- Claim C2, counterexample: the unoptimized write of the reference sample
returns 16442, not the claimed 8274. -/
theorem C2_counterexample :
    ((buildB sampleList).writeTo false).map Prod.snd = some 16442 ∧
    (16442 : Nat) ≠ 8274 := by
  obtain ⟨bs, h1, h2⟩ := sample_writeTo_false
  constructor
  · rw [h1]
    rfl
  · decide

/-- Claim C3 (confirmed).  Adding a value twice yields the same iteration
sequence as adding it once, and building a `Bitmap` from any two insertion
sequences with the same members emits identical output. -/
theorem C3_set_semantics :
    (∀ (xs : List Nat) (v : Nat),
      (((buildB xs).add v).add v).iterate = ((buildB xs).add v).iterate) ∧
    (∀ (xs ys : List Nat) (opt : Bool), (∀ a, a ∈ xs ↔ a ∈ ys) →
      (buildB xs).writeTo opt = (buildB ys).writeTo opt) := by
  constructor
  · intro xs v
    have h1 : ((buildB xs).add v).add v = buildB ((xs ++ [v]) ++ [v]) := by
      rw [buildB_append_one, buildB_append_one]
    have h2 : (buildB xs).add v = buildB (xs ++ [v]) := (buildB_append_one xs v).symm
    rw [h1, h2]
    show (buildB ((xs ++ [v]) ++ [v])).containers.iterate
      = (buildB (xs ++ [v])).containers.iterate
    apply iterate_congr
    rw [(buildB_canonical _).1, (buildB_canonical _).1]
    apply canonStore_congr
    intro a
    rw [List.mem_append, List.mem_append]
    tauto
  · intro xs ys opt hmem
    show (buildB xs).containers.writeTo opt = (buildB ys).containers.writeTo opt
    apply writeTo_congr
    rw [(buildB_canonical _).1, (buildB_canonical _).1]
    exact canonStore_congr hmem

/-- Claim C4 (confirmed).  For every built `Bitmap` the emitted offset
records are `8 + 16·N + Σ payload sizes before`, they increase strictly, and
`write_to` returns the final cursor, which is exactly the number of emitted
bytes. -/
theorem C4_offsets (xs : List Nat) (opt : Bool) :
    ∃ bs ret, (buildB xs).writeTo opt = some (bs, ret) ∧ bs.length = ret ∧
      (let kcs := (canonStore xs).filter (fun kc => kc.2.n > 0);
       let cs := kcs.map (fun kc => if opt then kc.2.optimizedD else kc.2);
       let offs := offsetsList cs (8 + 16 * kcs.length);
       ret = 8 + 16 * kcs.length + (cs.map Container.emitSize).sum ∧
       (∀ i, i < cs.length → offs[i]? =
          some (8 + 16 * kcs.length + ((cs.take i).map Container.emitSize).sum)) ∧
       offs.Pairwise (· < ·) ∧
       bs = u32le COOKIE ++ u32le kcs.length ++
         kcs.flatMap (fun kc => u64le kc.1 ++
           u16le ((if opt then kc.2.optimizedD else kc.2).type) ++ u16le (kc.2.n - 1)) ++
         offs.flatMap u32le ++ cs.flatMap Container.payload) := by
  have hkc := (buildB_canonical xs).1
  have hval : ∀ kc ∈ (buildB xs).containers.keyContainers, kc.2.validType := by
    rw [hkc]
    exact canonStore_valid xs
  have h1 := writeTo_eq hval opt
  rw [hkc] at h1
  have hco : ∀ N : Nat, HEADER_BASE_SIZE + N * 16 = 8 + 16 * N := by
    intro N
    rw [show HEADER_BASE_SIZE = 8 from rfl]
    ring
  rw [hco] at h1
  have hpos : ∀ c ∈ ((canonStore xs).filter (fun kc => kc.2.n > 0)).map
      (fun kc => if opt then kc.2.optimizedD else kc.2), 0 < c.emitSize := by
    intro c hc
    rcases List.mem_map.1 hc with ⟨kc, hkcf, hckc⟩
    obtain ⟨k, c2⟩ := kc
    have hn : c2.n > 0 := by
      have := (List.mem_filter.1 hkcf).2
      simpa using this
    have hkcm := List.mem_of_mem_filter hkcf
    rw [canonStore_def, mem_storeOf] at hkcm
    have hLne : lowsOf xs k ≠ [] := by
      intro hnil
      rw [hkcm.2, hnil, canonC_nil] at hn
      exact absurd hn (by decide)
    rw [← hckc, hkcm.2]
    cases opt
    · show 0 < (canonC (lowsOf xs k)).emitSize
      exact emitSize_canonC_pos hLne
    · show 0 < ((canonC (lowsOf xs k)).optimizedD).emitSize
      exact emitSize_optimizedD_canonC_pos (lowsOf_pairwise xs k) (lowsOf_bounded xs k) hLne
  refine ⟨_, _, h1, writeTo_length hval opt h1, ?_⟩
  exact ⟨rfl,
    fun i hi => offsetsList_getElem? _ _ hi,
    offsetsList_pairwise _ _ hpos,
    rfl⟩

/-- Claim C5 (confirmed).  The meta record of each emitted container carries
the `u16` field `n - 1`; decoding it and adding one recovers exactly the
number of distinct low values the container holds at emit time (its
iteration is strictly ascending, so its length counts distinct values). -/
theorem C5_cardinality_meta (xs : List Nat) (opt : Bool) :
    metaPass (buildB xs).containers.keyContainers opt = some (
      ((canonStore xs).filter (fun kc => kc.2.n > 0)).flatMap
        (fun kc => u64le kc.1 ++ u16le ((if opt then kc.2.optimizedD else kc.2).type)
          ++ u16le (kc.2.n - 1)),
      ((canonStore xs).filter (fun kc => kc.2.n > 0)).map
        (fun kc => if opt then kc.2.optimizedD else kc.2)) ∧
    (∀ kc ∈ canonStore xs,
      kc.2.iterate.Pairwise (· < ·) ∧
      kc.2.n = kc.2.iterate.length ∧
      u16dec (u16le (kc.2.n - 1)) + 1 = kc.2.iterate.length) := by
  constructor
  · rw [(buildB_canonical xs).1]
    exact metaPass_eq opt (canonStore xs) (canonStore_valid xs)
  · intro kc hkc
    obtain ⟨k, c⟩ := kc
    rw [canonStore_def, mem_storeOf] at hkc
    obtain ⟨hk, rfl⟩ := hkc
    have hs := lowsOf_pairwise xs k
    have hb := lowsOf_bounded xs k
    have hit : (canonC (lowsOf xs k)).iterate = lowsOf xs k := iterate_canonC hs hb
    refine ⟨?_, ?_, ?_⟩
    · show (canonC (lowsOf xs k)).iterate.Pairwise (· < ·)
      rw [hit]
      exact hs
    · show (canonC (lowsOf xs k)).n = (canonC (lowsOf xs k)).iterate.length
      rw [hit, canonC_n]
    · show u16dec (u16le ((canonC (lowsOf xs k)).n - 1)) + 1
        = (canonC (lowsOf xs k)).iterate.length
      rw [hit, canonC_n, u16dec_u16le]
      have hlen : (lowsOf xs k).length ≤ 65536 := length_le_of_pairwise_lt_bounded hs hb
      have hmem2 : k ∈ xs.map keyOf := mem_sortIns.1 hk
      have hpos : 0 < (lowsOf xs k).length :=
        List.length_pos.2 (lowsOf_ne_nil_of_mem hmem2)
      omega

/-- Claim C6 (confirmed).  The container keys of a built `Bitmap` are sorted
strictly ascending (hence distinct), iteration is strictly ascending, and
each yielded value is `(key <<< 16) + low` taken from the containers in key
order. -/
theorem C6_sorted_iteration (xs : List Nat) :
    ((buildB xs).containers.keyContainers.map Prod.fst).Pairwise (· < ·) ∧
    ((buildB xs).containers.keyContainers.map Prod.fst).Nodup ∧
    (buildB xs).iterate.Pairwise (· < ·) ∧
    (buildB xs).iterate = (buildB xs).containers.keyContainers.flatMap
      (fun kc => kc.2.iterate.map (fun low => (kc.1 <<< 16) + low)) := by
  have hkeys : ((buildB xs).containers.keyContainers.map Prod.fst).Pairwise (· < ·) := by
    rw [(buildB_canonical xs).1, canonStore_def, storeOf_keys]
    exact sortIns_pairwise _
  exact ⟨hkeys, pairwise_lt_nodup hkeys, iterate_buildB_pairwise xs, rfl⟩

/-- Claim C7 (confirmed).  The first four emitted bytes decode (little
endian) to 12348, the next four to the number `N` of containers with nonzero
cardinality, the rest of the stream is built from exactly those `N`
containers (one meta record, one offset record, one payload each), and a
store stripped of its empty containers emits the identical stream. -/
theorem C7_header_and_skip (sc : SliceContainers) (opt : Bool)
    (hty : ∀ kc ∈ sc.keyContainers, kc.2.validType)
    (hN : (sc.keyContainers.filter (fun kc => kc.2.n > 0)).length < 4294967296) :
    ∃ bs ret, sc.writeTo opt = some (bs, ret) ∧
      u32dec (bs.take 4) = 12348 ∧
      u32dec ((bs.drop 4).take 4)
        = (sc.keyContainers.filter (fun kc => kc.2.n > 0)).length ∧
      sc.writeTo opt = SliceContainers.writeTo
        ⟨sc.keyContainers.filter (fun kc => kc.2.n > 0), sc.lastKey, sc.lastContainer⟩ opt ∧
      bs = u32le COOKIE
        ++ u32le (sc.keyContainers.filter (fun kc => kc.2.n > 0)).length
        ++ (sc.keyContainers.filter (fun kc => kc.2.n > 0)).flatMap
          (fun kc => u64le kc.1 ++ u16le ((if opt then kc.2.optimizedD else kc.2).type)
            ++ u16le (kc.2.n - 1))
        ++ (offsetsList ((sc.keyContainers.filter (fun kc => kc.2.n > 0)).map
              (fun kc => if opt then kc.2.optimizedD else kc.2))
            (HEADER_BASE_SIZE
              + (sc.keyContainers.filter (fun kc => kc.2.n > 0)).length * 16)).flatMap u32le
        ++ ((sc.keyContainers.filter (fun kc => kc.2.n > 0)).map
              (fun kc => if opt then kc.2.optimizedD else kc.2)).flatMap Container.payload := by
  have h1 := writeTo_eq hty opt
  refine ⟨_, _, h1, ?_, ?_, ?_, rfl⟩
  · rw [List.append_assoc, List.append_assoc, List.append_assoc,
      take4_append (length_u32le COOKIE), u32dec_u32le]
    decide
  · rw [List.append_assoc, List.append_assoc, List.append_assoc,
      drop4_append (length_u32le COOKIE), take4_append (length_u32le _), u32dec_u32le]
    exact Nat.mod_eq_of_lt hN
  · have hsub : ∀ kc ∈ (SliceContainers.mk
        (sc.keyContainers.filter (fun kc => kc.2.n > 0))
        sc.lastKey sc.lastContainer).keyContainers, kc.2.validType :=
      fun kc hkc => hty kc (List.mem_of_mem_filter hkc)
    have h2 := writeTo_eq hsub opt
    have hkc2 : (SliceContainers.mk (sc.keyContainers.filter (fun kc => kc.2.n > 0))
        sc.lastKey sc.lastContainer).keyContainers
        = sc.keyContainers.filter (fun kc => kc.2.n > 0) := rfl
    have hidem : (sc.keyContainers.filter (fun kc => kc.2.n > 0)).filter
        (fun kc => kc.2.n > 0) = sc.keyContainers.filter (fun kc => kc.2.n > 0) :=
      List.filter_eq_self.2 (fun a ha => (List.mem_filter.1 ha).2)
    rw [hkc2, hidem] at h2
    rw [h1, h2]

/-- Claim C7 witness: a store holding one empty container under key 0 and
the one-element container `{5}` under key 1. -/
theorem C7_witness :
    ∃ bs ret, SliceContainers.writeTo
        ⟨[(0, Container.init), (1, buildC [5])], 0, none⟩ true = some (bs, ret) ∧
      u32dec (bs.take 4) = 12348 ∧
      u32dec ((bs.drop 4).take 4)
        = (([(0, Container.init), (1, buildC [5])] : List (Nat × Container)).filter
            (fun kc => kc.2.n > 0)).length ∧
      SliceContainers.writeTo ⟨[(0, Container.init), (1, buildC [5])], 0, none⟩ true
        = SliceContainers.writeTo
          ⟨([(0, Container.init), (1, buildC [5])] : List (Nat × Container)).filter
            (fun kc => kc.2.n > 0), 0, none⟩ true ∧
      bs = u32le COOKIE
        ++ u32le (([(0, Container.init), (1, buildC [5])] : List (Nat × Container)).filter
            (fun kc => kc.2.n > 0)).length
        ++ (([(0, Container.init), (1, buildC [5])] : List (Nat × Container)).filter
            (fun kc => kc.2.n > 0)).flatMap
          (fun kc => u64le kc.1 ++ u16le ((if true then kc.2.optimizedD else kc.2).type)
            ++ u16le (kc.2.n - 1))
        ++ (offsetsList ((([(0, Container.init), (1, buildC [5])]
              : List (Nat × Container)).filter (fun kc => kc.2.n > 0)).map
              (fun kc => if true then kc.2.optimizedD else kc.2))
            (HEADER_BASE_SIZE
              + (([(0, Container.init), (1, buildC [5])] : List (Nat × Container)).filter
                  (fun kc => kc.2.n > 0)).length * 16)).flatMap u32le
        ++ ((([(0, Container.init), (1, buildC [5])] : List (Nat × Container)).filter
              (fun kc => kc.2.n > 0)).map
              (fun kc => if true then kc.2.optimizedD else kc.2)).flatMap Container.payload :=
  C7_header_and_skip ⟨[(0, Container.init), (1, buildC [5])], 0, none⟩ true
    (by
      intro kc hkc
      replace hkc : kc ∈ [(0, Container.init), (1, buildC [5])] := hkc
      simp only [List.mem_cons, List.not_mem_nil, or_false] at hkc
      rcases hkc with rfl | rfl
      · exact Or.inl rfl
      · exact Or.inl rfl)
    (by decide)

/-- Claim C8 (confirmed).  `Container.write_to` fails intrinsically exactly
on an invalid type tag; with a valid tag every surfaced error is a sink
error passed through unchanged, and with a sink that never fails the write
succeeds. -/
theorem C8_write_errors {σ : Type u} {ε : Type v} (c : Container)
    (write : σ → List Nat → Except ε (σ × Nat)) (s : σ) :
    (¬ c.validType → c.writeToE write s = .error .invalidType) ∧
    (c.validType → ∀ er, c.writeToE write s = .error er →
      ∃ s2 bs e, write s2 bs = .error e ∧ er = .sinkErr e) ∧
    (c.validType → (∀ s2 bs, ∃ r, write s2 bs = .ok r) →
      ∃ r, c.writeToE write s = .ok r) := by
  refine ⟨?_, ?_, ?_⟩
  · intro h
    rw [Container.validType] at h
    push_neg at h
    obtain ⟨h1, h2, h3⟩ := h
    rw [Container.writeToE, if_neg h1, if_neg h2, if_neg h3]
  · intro hv er her
    rcases hv with h | h | h
    · rw [Container.writeToE, if_pos h] at her
      cases hw : write s (c.array.flatMap u16le) with
      | ok r =>
        simp only [hw] at her
        exact Except.noConfusion her
      | error e =>
        simp only [hw] at her
        injection her with h2
        exact ⟨s, c.array.flatMap u16le, e, hw, h2.symm⟩
    · rw [Container.writeToE, if_neg (by rw [h]; decide), if_pos h] at her
      cases hw : write s (c.bitmap.flatMap u64le) with
      | ok r =>
        simp only [hw] at her
        exact Except.noConfusion her
      | error e =>
        simp only [hw] at her
        injection her with h2
        exact ⟨s, c.bitmap.flatMap u64le, e, hw, h2.symm⟩
    · rw [Container.writeToE, if_neg (by rw [h]; decide), if_neg (by rw [h]; decide),
        if_pos h] at her
      cases hw : write s (u16le c.runs.length) with
      | error e =>
        simp only [hw] at her
        injection her with h2
        exact ⟨s, u16le c.runs.length, e, hw, h2.symm⟩
      | ok sw =>
        simp only [hw] at her
        rcases rleFold_error c.runs (Except.ok sw) her with h2 | h2
        · exact absurd h2 (by simp)
        · exact h2
  · intro hv hgood
    rcases hv with h | h | h
    · rw [Container.writeToE, if_pos h]
      rcases hgood s (c.array.flatMap u16le) with ⟨r, hr⟩
      refine ⟨r, ?_⟩
      simp only [hr]
    · rw [Container.writeToE, if_neg (by rw [h]; decide), if_pos h]
      rcases hgood s (c.bitmap.flatMap u64le) with ⟨r, hr⟩
      refine ⟨r, ?_⟩
      simp only [hr]
    · rw [Container.writeToE, if_neg (by rw [h]; decide), if_neg (by rw [h]; decide),
        if_pos h]
      rcases hgood s (u16le c.runs.length) with ⟨sw, hsw⟩
      rcases rleFold_ok_of_ok hgood c.runs sw with ⟨r, hr⟩
      refine ⟨r, ?_⟩
      simp only [hsw]
      exact hr

/-- Claim C9 (confirmed).  Every bitmap-typed container a built `Bitmap`
holds has exactly `BITMAP_N = 1024` words, and for any in-range low value
the word index `bit / 64` computed by `_bitmap_add` stays inside a
1024-word array, whose length `_bitmap_add` never changes. -/
theorem C9_bitmap_bounds (xs : List Nat) :
    (∀ kc ∈ (buildB xs).containers.keyContainers,
      kc.2.type = Container.TYPE_BITMAP → kc.2.bitmap.length = 1024) ∧
    BITMAP_N = 1024 ∧
    (∀ (c : Container) (bit : Nat), bit < 65536 → c.bitmap.length = 1024 →
      bit / 64 < c.bitmap.length ∧ (c.bitmapAdd bit).bitmap.length = c.bitmap.length) := by
  refine ⟨?_, by decide, ?_⟩
  · intro kc hkc htype
    obtain ⟨k, c⟩ := kc
    rw [(buildB_canonical xs).1, canonStore_def, mem_storeOf] at hkc
    obtain ⟨hk, rfl⟩ := hkc
    have htype2 : (canonC (lowsOf xs k)).type = Container.TYPE_BITMAP := htype
    show (canonC (lowsOf xs k)).bitmap.length = 1024
    rw [canonC] at htype2 ⊢
    by_cases hlen : (lowsOf xs k).length ≤ ARRAY_MAX_SIZE - 1
    · rw [if_pos hlen] at htype2
      have hcontra : Container.TYPE_ARRAY = Container.TYPE_BITMAP := htype2
      exact absurd hcontra (by decide)
    · rw [if_neg hlen]
      show (wordsOf (lowsOf xs k)).length = 1024
      rw [length_wordsOf]
      decide
  · intro c bit hbit hlen
    constructor
    · rw [hlen]
      omega
    · rw [Container.bitmapAdd]
      split
      · rfl
      · exact List.length_set c.bitmap (bit / 64) _

/-- Claim C10 (confirmed).  `write_to` leaves the store untouched: the
tracked write returns the same `SliceContainers` value, so iteration after
the call is unchanged and a second write emits byte-identical output. -/
theorem C10_write_frame (sc : SliceContainers) (opt : Bool) :
    sc.writeToTracked opt = (sc.writeTo opt).map (fun r => (r, sc)) ∧
    (∀ r sc2, sc.writeToTracked opt = some (r, sc2) →
      sc2.iterate = sc.iterate ∧ sc2.writeTo opt = sc.writeTo opt) := by
  refine ⟨writeToTracked_eq sc opt, ?_⟩
  intro r sc2 h
  rw [writeToTracked_eq sc opt] at h
  cases hw : sc.writeTo opt with
  | none =>
    rw [hw] at h
    exact absurd h (by simp)
  | some r2 =>
    rw [hw] at h
    rw [show (some r2).map (fun r => (r, sc)) = some (r2, sc) from rfl] at h
    injection h with h2
    rw [Prod.mk.injEq] at h2
    obtain ⟨h3, h4⟩ := h2
    exact ⟨by rw [← h4], by rw [← h4]; exact hw⟩

end Roaring
